import Mathlib

/-!
Verification development for the error-driven PHP patch engine
(`fixer.py`, `agents.py`, `app.py`): a shallow embedding of the
target locator, path remapper, style profiler, structural class
scanner, dynamic-property declarator, rule engine and patch applier,
together with theorems about the behaviours the specification claims.

Modelling conventions:
* Source text is `List Char` (`Str` below); Python strings map to these
  character lists verbatim.
* The host platform is modelled as POSIX: `os.sep = '/'` and
  `os.path.normpath = posixpath.normpath`, matching the environment the
  program runs in when paths are slash-separated.
* Python regular expressions used by the code are hand-compiled into
  explicit matching functions over `Str`, faithful to the pattern,
  including case-insensitivity flags, greedy/lazy repetition,
  `^` anchoring under `re.M`, and the non-overlapping left-to-right
  scan of `finditer`/`subn`.
* External collaborators (the text-completion service, `php -l`,
  the filesystem for error injection) are parameters: a response
  oracle for the chat call, a `Str → Bool` verdict for lint, and
  booleans injecting backup/write failures that the code swallows.
* Recursive scans carry an explicit `fuel : Nat` argument that is
  always called with an amount at least the remaining input length,
  so all definitions reduce by kernel computation.
-/

/-- Source text: a Python string as its list of characters. -/
abbrev Str := List Char

/-- Character list of a Lean string literal. -/
def st (s : String) : Str := s.data

/-- Python `\s` (ASCII whitespace as used by `re` on these inputs). -/
def isWS (c : Char) : Bool :=
  c = ' ' ∨ c = '\t' ∨ c = '\n' ∨ c = '\x0d' ∨ c = '\x0c' ∨ c = '\x0b'

/-- ASCII letter. -/
def isAlpha (c : Char) : Bool :=
  ('a' ≤ c ∧ c ≤ 'z') ∨ ('A' ≤ c ∧ c ≤ 'Z')

/-- ASCII digit. -/
def isDigit (c : Char) : Bool := '0' ≤ c ∧ c ≤ '9'

/-- First character of `[A-Za-z_][A-Za-z0-9_]*`. -/
def isIdentStart (c : Char) : Bool := isAlpha c ∨ c = '_'

/-- Continuation character of `[A-Za-z0-9_]`; also Python's `\w` here. -/
def isIdentChar (c : Char) : Bool := isAlpha c ∨ isDigit c ∨ c = '_'

/-- ASCII lower-casing, as `str.lower`/`re.I` use on these inputs. -/
def lowerC (c : Char) : Char :=
  if 'A' ≤ c ∧ c ≤ 'Z' then Char.ofNat (c.toNat + 32) else c

/-- Case-insensitive character comparison (for `re.I`). -/
def ciEq (a b : Char) : Bool := lowerC a = lowerC b

/-- Literal-prefix test, optionally case-insensitive. -/
def litPre (ci : Bool) : Str → Str → Bool
  | [], _ => true
  | _ :: _, [] => false
  | p :: ps, c :: cs => (if ci then ciEq p c else p = c) ∧ litPre ci ps cs

/-- Maximal `\s*`: split off the longest whitespace run. -/
def wsSplit : Str → Str × Str
  | [] => ([], [])
  | c :: cs =>
    if isWS c then
      let (w, r) := wsSplit cs
      (c :: w, r)
    else ([], c :: cs)

/-- Length of the maximal leading whitespace run. -/
def wsLen (s : Str) : Nat := (wsSplit s).1.length

/-- Python `str.strip()`: drop ASCII whitespace from both ends. -/
def pyStrip (s : Str) : Str :=
  ((s.dropWhile (isWS ·)).reverse.dropWhile (isWS ·)).reverse

/-- Digits of a match of `\d+` converted by `int(...)`. -/
def digitsToNat (s : Str) : Nat :=
  s.foldl (fun a c => a * 10 + (c.toNat - 48)) 0

/-- Count occurrences of a character (Python `str.count` of 1 char). -/
def countChar (c : Char) (s : Str) : Nat := (s.filter (· = c)).length

/-- Non-overlapping occurrence count of a substring, Python `str.count`.
`fuel` dominates `s.length`. -/
def countSubFuel (fuel : Nat) (pat : Str) (s : Str) : Nat :=
  match fuel, s with
  | 0, _ => 0
  | _, [] => 0
  | fuel + 1, c :: cs =>
    if pat ≠ [] ∧ litPre false pat (c :: cs) then
      1 + countSubFuel fuel pat (s.drop pat.length)
    else
      countSubFuel fuel pat cs

/-- Non-overlapping occurrence count of a substring. -/
def countSub (pat : Str) (s : Str) : Nat := countSubFuel (s.length + 1) pat s

/-- Python `str.replace` (all non-overlapping occurrences, left to right). -/
def replaceAllFuel (fuel : Nat) (pat rep : Str) (s : Str) : Str :=
  match fuel, s with
  | 0, s => s
  | _, [] => []
  | fuel + 1, c :: cs =>
    if pat ≠ [] ∧ litPre false pat (c :: cs) then
      rep ++ replaceAllFuel fuel pat rep (s.drop pat.length)
    else
      c :: replaceAllFuel fuel pat rep cs

/-- Python `str.replace` entry point. -/
def replaceAll (pat rep : Str) (s : Str) : Str :=
  replaceAllFuel (s.length + 1) pat rep s

/-- Lexicographic `≤` on code points, as Python compares strings. -/
def lexLe : Str → Str → Bool
  | [], _ => true
  | _ :: _, [] => false
  | a :: as, b :: bs =>
    if a.toNat < b.toNat then true
    else if b.toNat < a.toNat then false
    else lexLe as bs

/-- Insert into a `lexLe`-sorted list keeping stability. -/
def lexInsert (x : Str) : List Str → List Str
  | [] => [x]
  | y :: ys => if lexLe x y then x :: y :: ys else y :: lexInsert x ys

/-- Insertion sort by `lexLe`; models Python `sorted` on strings. -/
def lexSort : List Str → List Str
  | [] => []
  | x :: xs => lexInsert x (lexSort xs)

/-- First-occurrence-preserving dedup used to model Python `set(...)`
before sorting (the set's iteration order is irrelevant once sorted). -/
def dedupStr : List Str → List Str
  | [] => []
  | x :: xs => x :: (dedupStr xs).filter (fun y => ¬ (y = x))

/-- Python `sorted(set(names))`. -/
def sortedSet (l : List Str) : List Str := lexSort (dedupStr l)

/-- Index of the first occurrence of `c` at or after `i` (Python
`str.find(c, i)` as an `Option`). -/
def findCharFrom (s : Str) (c : Char) (i : Nat) : Option Nat :=
  match (s.drop i).findIdx? (· = c) with
  | some k => some (i + k)
  | none => none

/-- Join a list of strings with a separator (Python `sep.join`). -/
def joinSep (sep : Str) : List Str → Str
  | [] => []
  | [x] => x
  | x :: xs => x ++ sep ++ joinSep sep xs

/-! ## Dynamic-property declarator (`fixer.py` §DYNAMIC PROPS)

Hand-compiled forms of `_PROP_DECL_RE`, `_THIS_PROP_RE`, `_METHOD_RE`,
`_DOCBLOCK_RE` and `_CLASS_LINE_RE`, each faithful to the Python
pattern's backtracking behaviour; determinism notes are given where the
pattern's structure makes greedy choices exact. -/

/-- Type-name character of `[A-Za-z0-9_\\]` in `_PROP_DECL_RE`. -/
def isTypeChar (c : Char) : Bool := isIdentChar c ∨ c = '\\'

/-- First character of a type name `[A-Za-z_\\]`. -/
def isTypeStart (c : Char) : Bool := isIdentStart c ∨ c = '\\'

/-- Attempt `_PROP_DECL_RE` at a position where `^` holds; returns the
matched length and the captured property name.  The pattern is
`^\s*(?:(?P<vis>public|protected|private)|(?P<var>var))\s+(?:static\s+)?`
`(?:\??[A-Za-z_\\][A-Za-z0-9_\\]*\s+)?\$(?P<name>[A-Za-z_][A-Za-z0-9_]*)\b[^\n;]*;`.
The four keywords are pairwise non-prefix so at most one alternative
applies; the optional `static`/type groups are taken greedily — a taken
group that later fails cannot be rescued by skipping it, because the
skipped position then starts with a letter where `\$` is required. -/
def matchPropDecl (s : Str) : Option (Nat × Str) :=
  let (w0, r0) := wsSplit s
  let kwOpt : Option Nat :=
    if litPre false (st "public") r0 then some 6
    else if litPre false (st "protected") r0 then some 9
    else if litPre false (st "private") r0 then some 7
    else if litPre false (st "var") r0 then some 3
    else none
  match kwOpt with
  | none => none
  | some kn =>
    let r1 := r0.drop kn
    let (w1, r2) := wsSplit r1
    if w1 = [] then none else
    let (sn, r3) :=
      if litPre false (st "static") r2 ∧ 0 < wsLen (r2.drop 6) then
        (6 + wsLen (r2.drop 6), (r2.drop 6).drop (wsLen (r2.drop 6)))
      else (0, r2)
    let (tn, r4) :=
      let (qn, t1) := if r3.head? = some '?' then (1, r3.drop 1) else (0, r3)
      match t1.head? with
      | some c =>
        if isTypeStart c then
          let tbody := t1.takeWhile isTypeChar
          let trest := t1.drop tbody.length
          if 0 < wsLen trest then
            (qn + tbody.length + wsLen trest, trest.drop (wsLen trest))
          else (0, r3)
        else (0, r3)
      | none => (0, r3)
    match r4 with
    | '$' :: r5 =>
      let nm := r5.takeWhile isIdentChar
      match nm.head? with
      | some c0 =>
        if isIdentStart c0 then
          let r6 := r5.drop nm.length
          let gap := r6.takeWhile (fun c => ¬ (c = '\n' ∨ c = ';'))
          match r6.drop gap.length with
          | ';' :: _ =>
            some (w0.length + kn + w1.length + sn + tn + 1 + nm.length + gap.length + 1, nm)
          | _ => none
        else none
      | none => none
    | _ => none

/-- `finditer` of `_PROP_DECL_RE` over a body under `re.M`: attempts
start only where `^` holds (string start or after a newline) and the
scan resumes at each match's end (every match consumes at least one
character, so the resume point is modelled by a skip counter that walks
the matched span character by character).  Yields `(start, end, name)`. -/
def propDeclGo (i skip : Nat) (atLS : Bool) : Str → List (Nat × Nat × Str)
  | [] => []
  | c :: cs =>
    if 0 < skip then propDeclGo (i + 1) (skip - 1) (c = '\n') cs
    else if atLS then
      match matchPropDecl (c :: cs) with
      | some (len, nm) =>
        (i, i + len, nm) :: propDeclGo (i + 1) (len - 1) (c = '\n') cs
      | none => propDeclGo (i + 1) 0 (c = '\n') cs
    else propDeclGo (i + 1) 0 (c = '\n') cs

/-- All `_PROP_DECL_RE` matches of a class body. -/
def propDeclMatches (body : Str) : List (Nat × Nat × Str) :=
  propDeclGo 0 0 true body

/-- The declared-property names of a body (`_PROP_DECL_RE` captures). -/
def declaredNames (body : Str) : List Str :=
  (propDeclMatches body).map (fun m => m.2.2)

/-- `finditer` of `_THIS_PROP_RE = \$this->([A-Za-z_][A-Za-z0-9_]*)\b`:
the self-referenced property names, in text order, duplicates kept. -/
def thisPropGo (skip : Nat) : Str → List Str
  | [] => []
  | c :: cs =>
    if 0 < skip then thisPropGo (skip - 1) cs
    else if litPre false (st "$this->") (c :: cs) then
      let nm := ((c :: cs).drop 7).takeWhile isIdentChar
      match nm.head? with
      | some c0 =>
        if isIdentStart c0 then nm :: thisPropGo (7 + nm.length - 1) cs
        else thisPropGo 0 cs
      | none => thisPropGo 0 cs
    else thisPropGo 0 cs

/-- Self-referenced property names of a body. -/
def thisPropNames (body : Str) : List Str := thisPropGo 0 body

/-- Attempt `_METHOD_RE = ^\s*(?:public|protected|private)?\s*function\b`
at a `^` position.  If a visibility keyword is present it must be taken:
skipping it would require `function` to start at that same letter. -/
def matchMethodAt (s : Str) : Bool :=
  let (_, r0) := wsSplit s
  let r1 :=
    if litPre false (st "public") r0 then r0.drop 6
    else if litPre false (st "protected") r0 then r0.drop 9
    else if litPre false (st "private") r0 then r0.drop 7
    else r0
  let (_, r2) := wsSplit r1
  if litPre false (st "function") r2 then
    match (r2.drop 8).head? with
    | some c => ¬ isIdentChar c
    | none => true
  else false

/-- `_METHOD_RE.search`: start index of the leftmost match. -/
def methodSearchStart (fuel i : Nat) (atLS : Bool) (s : Str) : Option Nat :=
  match fuel, s with
  | 0, _ => none
  | _, [] => none
  | fuel + 1, c :: cs =>
    if atLS ∧ matchMethodAt (c :: cs) then some i
    else methodSearchStart fuel (i + 1) (c = '\n') cs

/-- Leftmost `_METHOD_RE` match start in a body. -/
def methodSearch (body : Str) : Option Nat :=
  methodSearchStart (body.length + 1) 0 true body

/-- Minimal end of a lazy `[\s\S]*?\*/` continuation: the first `*/`
starting at or after `j` that ends within `bound`. -/
def docClose (fuel j : Nat) (s : Str) (bound : Nat) : Option Nat :=
  match fuel, s with
  | 0, _ => none
  | _, [] => none
  | fuel + 1, c :: cs =>
    if c = '*' ∧ cs.head? = some '/' ∧ j + 2 ≤ bound then some (j + 2)
    else docClose fuel (j + 1) cs bound

/-- `_DOCBLOCK_RE.search(body, 0, bound)` for `/\*\*[\s\S]*?\*/`:
leftmost `/**` whose nearest `*/` still ends within `bound`; returns
`(start, end)`. -/
def docblockSearch (fuel i : Nat) (s : Str) (bound : Nat) : Option (Nat × Nat) :=
  match fuel, s with
  | 0, _ => none
  | _, [] => none
  | fuel + 1, c :: cs =>
    if c = '/' ∧ litPre false (st "**") cs then
      match docClose (s.length + 1) (i + 3) (cs.drop 2) bound with
      | some e => some (i, e)
      | none => docblockSearch fuel (i + 1) cs bound
    else docblockSearch fuel (i + 1) cs bound

/-- `_find_insert_point`: after the last property declaration's line if
any; else after the first docblock preceding the first method; else 0. -/
def find_insert_point (body : Str) : Nat :=
  match (propDeclMatches body).getLast? with
  | some m =>
    match findCharFrom body '\n' m.2.1 with
    | some e => e + 1
    | none => body.length
  | none =>
    let bound := (methodSearch body).getD body.length
    match docblockSearch (body.length + 1) 0 body bound with
    | some d =>
      match findCharFrom body '\n' d.2 with
      | some e => e + 1
      | none => body.length
    | none => 0

/-- Attempt `_CLASS_LINE_RE` at a `^` position:
`^\s*(?:final\s+|abstract\s+)?class\s+[A-Za-z_][A-Za-z0-9_]*[^{]*\{`.
Returns the matched length (ending just after the `{`).  `final`,
`abstract` and `class` are pairwise non-prefix, so the optional group is
deterministic. -/
def matchClassLine (s : Str) : Option Nat :=
  let (w0, r0) := wsSplit s
  let (fn, r1) :=
    if litPre false (st "final") r0 ∧ 0 < wsLen (r0.drop 5) then
      (5 + wsLen (r0.drop 5), (r0.drop 5).drop (wsLen (r0.drop 5)))
    else if litPre false (st "abstract") r0 ∧ 0 < wsLen (r0.drop 8) then
      (8 + wsLen (r0.drop 8), (r0.drop 8).drop (wsLen (r0.drop 8)))
    else (0, r0)
  if litPre false (st "class") r1 then
    let r2 := r1.drop 5
    let (w1, r3) := wsSplit r2
    if w1 = [] then none else
    match r3.head? with
    | some c =>
      if isIdentStart c then
        let nm := r3.takeWhile isIdentChar
        let r4 := r3.drop nm.length
        let gap := r4.takeWhile (fun c => ¬ (c = '{'))
        match (r4.drop gap.length).head? with
        | some _ =>
          some (w0.length + fn + 5 + w1.length + nm.length + gap.length + 1)
        | none => none
      else none
    | none => none
  else none

/-- `finditer` of `_CLASS_LINE_RE` under `(?m)`: yields `(start, end)`
with `end` just past the `{`; resumes after each match. -/
def classLineScan (fuel i : Nat) (atLS : Bool) (s : Str) : List (Nat × Nat) :=
  match fuel, s with
  | 0, _ => []
  | _, [] => []
  | fuel + 1, c :: cs =>
    if atLS then
      match matchClassLine (c :: cs) with
      | some len =>
        (i, i + len) ::
          classLineScan fuel (i + len) (((c :: cs).take len).getLast? = some '\n')
            ((c :: cs).drop len)
      | none => classLineScan fuel (i + 1) (c = '\n') cs
    else classLineScan fuel (i + 1) (c = '\n') cs

/-- Lexical state of the `_iter_class_regions` character scan. -/
structure ScanState where
  depth : Nat
  in_sq : Bool
  in_dq : Bool
  in_line : Bool
  in_block : Bool
  in_here : Bool
  here_tag : Str
deriving Repr, DecidableEq

/-- Heredoc opener `<<<\s*(?:'TAG'|"TAG"|TAG)` at the `<`; the quoted
alternatives fail on a quote that does not wrap a full tag, and a quote
character can never start the bare alternative. -/
def matchHeredocOpen (s : Str) : Option Str :=
  if litPre false (st "<<<") s then
    let (_, r0) := wsSplit (s.drop 3)
    match r0.head? with
    | some '\x27' =>
      let rest := r0.drop 1
      let nm := rest.takeWhile isIdentChar
      match nm.head? with
      | some c0 =>
        if isIdentStart c0 ∧ (rest.drop nm.length).head? = some '\x27' then some nm
        else none
      | none => none
    | some '"' =>
      let rest := r0.drop 1
      let nm := rest.takeWhile isIdentChar
      match nm.head? with
      | some c0 =>
        if isIdentStart c0 ∧ (rest.drop nm.length).head? = some '"' then some nm
        else none
      | none => none
    | some c0 =>
      if isIdentStart c0 then some (r0.takeWhile isIdentChar) else none
    | none => none
  else none

/-- Heredoc terminator test: `re.match(r"([A-Za-z_][A-Za-z0-9_]*)\s*;?\s*$", line)`
with the captured identifier equal to the tag (the segment holds no
newline, so `$` is the segment end). -/
def heredocLineEnds (line tag : Str) : Bool :=
  let nm := line.takeWhile isIdentChar
  match nm.head? with
  | some c0 =>
    if isIdentStart c0 then
      let r1 := line.drop nm.length
      let (_, r2) := wsSplit r1
      let r3 := if r2.head? = some ';' then r2.drop 1 else r2
      let (_, r4) := wsSplit r3
      r4 = [] ∧ nm = tag
    else false
  | none => false

/-- One-character lookup `src[i]`. -/
def charAt (src : Str) (i : Nat) : Option Char := (src.drop i).head?

/-- The `while i < n and depth > 0` scan of `_iter_class_regions`,
tracking the lexical modes exactly as the Python loop does (including
its naive one-character escape handling).  Returns the close index
(`i - 1` at exit) when depth returns to zero. -/
def scanRegion (src : Str) : Nat → Nat → ScanState → Option Nat
  | 0, _, _ => none
  | fuel + 1, i, stt =>
    if stt.depth = 0 then some (i - 1)
    else if src.length ≤ i then none
    else
      let ch := (charAt src i).getD ' '
      let prev := if 0 < i then charAt src (i - 1) else none
      if stt.in_here then
        if ch = '\n' then
          let j := i + 1
          let lineEnd := (findCharFrom src '\n' j).getD src.length
          let seg := (src.take lineEnd).drop j
          if heredocLineEnds seg stt.here_tag then
            scanRegion src fuel (i + 1) { stt with in_here := false }
          else scanRegion src fuel (i + 1) stt
        else scanRegion src fuel (i + 1) stt
      else if stt.in_line then
        if ch = '\n' then scanRegion src fuel (i + 1) { stt with in_line := false }
        else scanRegion src fuel (i + 1) stt
      else if stt.in_block then
        if prev = some '*' ∧ ch = '/' then
          scanRegion src fuel (i + 1) { stt with in_block := false }
        else scanRegion src fuel (i + 1) stt
      else if stt.in_sq then
        if ch = '\x27' ∧ ¬ (prev = some '\\') then
          scanRegion src fuel (i + 1) { stt with in_sq := false }
        else scanRegion src fuel (i + 1) stt
      else if stt.in_dq then
        if ch = '"' ∧ ¬ (prev = some '\\') then
          scanRegion src fuel (i + 1) { stt with in_dq := false }
        else scanRegion src fuel (i + 1) stt
      else
        if ch = '\x27' then scanRegion src fuel (i + 1) { stt with in_sq := true }
        else if ch = '"' then scanRegion src fuel (i + 1) { stt with in_dq := true }
        else if ch = '/' ∧ charAt src (i + 1) = some '/' then
          scanRegion src fuel (i + 2) { stt with in_line := true }
        else if ch = '/' ∧ charAt src (i + 1) = some '*' then
          scanRegion src fuel (i + 2) { stt with in_block := true }
        else if ch = '{' then
          scanRegion src fuel (i + 1) { stt with depth := stt.depth + 1 }
        else if ch = '}' then
          scanRegion src fuel (i + 1) { stt with depth := stt.depth - 1 }
        else if ch = '<' ∧ litPre false (st "<<<") (src.drop i) then
          match matchHeredocOpen (src.drop i) with
          | some tag =>
            scanRegion src fuel (i + 1) { stt with in_here := true, here_tag := tag }
          | none => scanRegion src fuel (i + 1) stt
        else scanRegion src fuel (i + 1) stt

/-- `_iter_class_regions`: for each class-line match, the `{` at the
match end opens the region; the scan yields `(open_idx, close_idx)` only
when the brace depth returns to zero. -/
def iter_class_regions (src : Str) : List (Nat × Nat) :=
  (classLineScan (src.length + 1) 0 true src).filterMap (fun m =>
    match findCharFrom src '{' (m.2 - 1) with
    | none => none
    | some o =>
      (scanRegion src (src.length + 2) (o + 1) ⟨1, false, false, false, false, false, []⟩).map
        (fun cl => (o, cl)))

/-- Attempt `(?m)^\s*KW\s+\$[A-Za-z_]` at a `^` position (the dominant
declaration-style counters of `_infer_prop_decl_style`). -/
def matchKwDecl (kw : Str) (s : Str) : Option Nat :=
  let (w0, r0) := wsSplit s
  if litPre false kw r0 then
    let r1 := r0.drop kw.length
    let (w1, r2) := wsSplit r1
    if w1 = [] then none else
    match r2 with
    | '$' :: c :: _ =>
      if isAlpha c ∨ c = '_' then some (w0.length + kw.length + w1.length + 2) else none
    | _ => none
  else none

/-- Count of `(?m)^\s*KW\s+\$[A-Za-z_]` matches over a whole file. -/
def kwDeclScan (fuel : Nat) (kw : Str) (atLS : Bool) (s : Str) : Nat :=
  match fuel, s with
  | 0, _ => 0
  | _, [] => 0
  | fuel + 1, c :: cs =>
    if atLS then
      match matchKwDecl kw (c :: cs) with
      | some len =>
        1 + kwDeclScan fuel kw (((c :: cs).take len).getLast? = some '\n') ((c :: cs).drop len)
      | none => kwDeclScan fuel kw (c = '\n') cs
    else kwDeclScan fuel kw (c = '\n') cs

/-- `len(re.findall(...))` for one declaration keyword. -/
def kwDeclCount (kw : Str) (src : Str) : Nat :=
  kwDeclScan (src.length + 1) kw true src

/-- `_infer_prop_decl_style`: `var` wins whenever its count is at least
the combined visibility count; otherwise the maximal visibility keyword
wins, ties preferring `public` then `protected`. -/
def infer_prop_decl_style (src : Str) : Str :=
  let var_count := kwDeclCount (st "var") src
  let pub_count := kwDeclCount (st "public") src
  let pro_count := kwDeclCount (st "protected") src
  let pri_count := kwDeclCount (st "private") src
  if pub_count + pro_count + pri_count ≤ var_count then st "var"
  else if max pub_count (max pro_count pri_count) = pub_count then st "public"
  else if max pub_count (max pro_count pri_count) = pro_count then st "protected"
  else st "private"

/-! ## Style profiler (`infer_style`)

Only `indent` and `eol` are consumed by any embedded operation (the
declarator shapes inserted lines with them); the Python dict's other six
fields feed only the text-completion prompt, which is external. -/

/-- The two style fields the patch engine consumes. -/
structure Style where
  indent : Str
  eol : Str
deriving Repr, DecidableEq

/-- `_infer_eol`: CRLF wins only on a strict majority over bare LF. -/
def infer_eol (code : Str) : Str :=
  let crlf := countSub (st "\x0d\n") code
  let lf := countChar '\n' code - crlf
  if lf < crlf then st "\x0d\n" else st "\n"

/-- Split on every occurrence of a character (line starts of `re.M`). -/
def splitChar (c : Char) : Str → List Str
  | [] => [[]]
  | x :: xs =>
    let r := splitChar c xs
    if x = c then [] :: r
    else
      match r with
      | h :: t => (x :: h) :: t
      | [] => [[x]]

/-- Counter-update preserving first-insertion order of keys. -/
def bumpKey (k : Nat) : List (Nat × Nat) → List (Nat × Nat)
  | [] => [(k, 1)]
  | (a, c) :: r => if a = k then (a, c + 1) :: r else (a, c) :: bumpKey k r

/-- The `steps` Counter of `_infer_indent`: positive differences of
consecutive space-lead widths. -/
def stepsOf (leads : List Nat) : List (Nat × Nat) :=
  (leads.foldl
    (fun (acc : List (Nat × Nat) × Option Nat) n =>
      match acc.2 with
      | some p => if p < n then (bumpKey (n - p) acc.1, some n) else (acc.1, some n)
      | none => (acc.1, some n))
    ([], none)).1

/-- `max(steps, key=steps.get)`: the first key attaining the maximal
count, in key-insertion order (CPython dict semantics). -/
def argmaxFirst : List (Nat × Nat) → Nat
  | [] => 4
  | (k, c) :: r =>
    (r.foldl (fun (best : Nat × Nat) kv =>
      if best.2 < kv.2 then kv else best) (k, c)).1

/-- `\S` at the head of a suffix: a character is present and not
whitespace. -/
def nonWSHead (s : Str) : Bool :=
  match s.head? with
  | some c => ¬ isWS c
  | none => false

/-- `_infer_indent`: tab lines versus space-led lines, with the modal
positive indent step (snapped to `{2,3,4,8}`) deciding the space width. -/
def infer_indent (code : Str) : Str :=
  let lines := splitChar '\n' code
  let tab_lines := (lines.filter (fun l =>
    l.head? = some '\t' ∧ nonWSHead (l.dropWhile (· = '\t')))).length
  let sp_leads := lines.filterMap (fun l =>
    let sp := l.takeWhile (· = ' ')
    if sp ≠ [] ∧ nonWSHead (l.drop sp.length) then
      some sp.length
    else none)
  if sp_leads.length < tab_lines then st "\t"
  else
    let steps := stepsOf sp_leads
    if steps = [] then List.replicate 4 ' '
    else
      let size0 := argmaxFirst steps
      let size :=
        if size0 = 2 ∨ size0 = 3 ∨ size0 = 4 ∨ size0 = 8 then size0
        else if 4 ≤ size0 then 4 else 2
      List.replicate size ' '

/-- `infer_style`, restricted to the consumed fields. -/
def infer_style (code : Str) : Style :=
  ⟨infer_indent code, infer_eol code⟩

/-! ## The declarator itself -/

/-- `_decl_text`: one `indent ++ style ++ " $name;" ++ eol` line per
name of `sorted(set(names))`; the `var` branch of the Python source
produces the same shape with `decl_style = "var"`. -/
def decl_text (names : List Str) (style : Style) (decl_style : Str) : Str :=
  let ind := if style.indent = [] then st "    " else style.indent
  let e := if style.eol = [] then st "\n" else style.eol
  ((sortedSet names).map
    (fun n => ind ++ decl_style ++ (' ' :: '$' :: n) ++ (';' :: e))).flatten

/-- One region step of `_fix_dynamic_properties_declare`'s loop over
`reversed(regions)`, threading the progressively updated source. -/
def declareRegionStep (style : Style) (decl_style : Str)
    (acc : Str × Bool × List Str) (reg : Nat × Nat) : Str × Bool × List Str :=
  let cur := acc.1
  let body := (cur.take reg.2).drop (reg.1 + 1)
  let declared := declaredNames body
  let used := thisPropNames body
  let missing := lexSort (dedupStr (used.filter (fun n => ¬ declared.contains n)))
  if missing = [] then acc
  else
    let insert_rel := find_insert_point body
    let insert_abs := reg.1 + 1 + insert_rel
    let text := decl_text missing style decl_style
    (cur.take insert_abs ++ text ++ cur.drop insert_abs, true,
      acc.2.2 ++ [st "declare[" ++ decl_style ++ st "]: " ++ joinSep (st ", ") missing])

/-- `_fix_dynamic_properties_declare`: insert declarations in place for
every class region, last region first, using the file-dominant
declaration style; returns `(new_src, changed, note)`. -/
def fix_dynamic_properties_declare (style : Style) (src : Str) : Str × Bool × Str :=
  let regions := iter_class_regions src
  if regions = [] then (src, false, []) else
  let decl_style := infer_prop_decl_style src
  let r := regions.reverse.foldl (declareRegionStep style decl_style) (src, false, [])
  (r.1, r.2.1, if r.2.2 = [] then [] else joinSep (st " ; ") r.2.2)

/-! ## Path remapper (`_load_path_maps` / `remap_host_path`)

The host is modelled as POSIX (`os.sep = '/'`,
`os.path.normpath = posixpath.normpath`). -/

/-- Strip any of the given characters from the right (Python `rstrip`). -/
def rstripChars (cs : List Char) (s : Str) : Str :=
  (s.reverse.dropWhile (fun c => cs.contains c)).reverse

/-- `posixpath.normpath`. -/
def normpath (p : Str) : Str :=
  if p = [] then st "." else
  let ini : Nat :=
    if litPre false (st "///") p then 1
    else if litPre false (st "//") p then 2
    else if litPre false (st "/") p then 1
    else 0
  let comps := splitChar '/' p
  let new_comps := comps.foldl
    (fun (acc : List Str) comp =>
      if comp = [] ∨ comp = st "." then acc
      else if ¬ (comp = st "..") ∨ (ini = 0 ∧ acc = []) ∨ acc.getLast? = some (st "..") then
        acc ++ [comp]
      else if acc ≠ [] then acc.dropLast
      else acc)
    []
  let path := List.replicate ini '/' ++ joinSep (st "/") new_comps
  if path = [] then st "." else path

/-- A `{from, to}` path-mapping entry (`from` is a Lean keyword, hence
the field names). -/
structure PathMap where
  mfrom : Str
  mto : Str
deriving Repr, DecidableEq

/-- The hardcoded fallback mapping the loader installs when the parsed
configuration list is empty. -/
def default_path_map : PathMap :=
  ⟨st "/home/www-virtual/kangoiryo.jp",
   st "D:\\XAMPP\\htdocs\\kangoiryo.jp\\branches\\mungunshagai"⟩

/-- Stable-descending insertion by `from`-length (Python
`maps.sort(key=..., reverse=True)` is stable). -/
def insertByLen (x : PathMap) : List PathMap → List PathMap
  | [] => [x]
  | y :: ys =>
    if y.mfrom.length ≤ x.mfrom.length then x :: y :: ys
    else y :: insertByLen x ys

/-- Sort mappings by descending `from` length, stably. -/
def sortByLenDesc : List PathMap → List PathMap
  | [] => []
  | x :: xs => insertByLen x (sortByLenDesc xs)

/-- `_load_path_maps` after JSON decoding: an absent, empty or
unparseable `PATH_MAPS` value decodes to the empty list (`json.loads`
of the `"[]"` default, or the `except` branch), which the loader
replaces with the hardcoded default before filtering and sorting. -/
def load_path_maps (parsed : List PathMap) : List PathMap :=
  let maps0 := if parsed = [] then [default_path_map] else parsed
  sortByLenDesc (maps0.filter (fun m => m.mfrom ≠ [] ∧ m.mto ≠ []))

/-- One mapping attempt of `remap_host_path`'s loop body. -/
def remapTry (u : Str) (m : PathMap) : Option Str :=
  let srcp := (rstripChars ['/'] m.mfrom).map (fun c => if c = '\\' then '/' else c)
  if litPre false srcp u then
    let tail := u.drop srcp.length
    let dst := rstripChars ['\\', '/'] m.mto
    -- `tail.replace("/", os.sep)` is the identity on a POSIX host
    some (normpath (dst ++ tail))
  else none

/-- `remap_host_path`: first mapping whose slash-normalised `from` is a
prefix wins; otherwise the input is returned normalised. -/
def remap_host_path (maps : List PathMap) (path_in : Str) : Str :=
  if path_in = [] then path_in else
  let u := path_in.map (fun c => if c = '\\' then '/' else c)
  match maps.findSome? (remapTry u) with
  | some r => r
  | none => normpath path_in

/-! ## Target locator (`extract_php_targets`) -/

/-- Recognised extensions, in the pattern's alternation order. -/
def extList : List Str := [st "php", st "phtml", st "tpl", st "inc"]

/-- Path character of pattern 1: `[^<>\r\n"']`. -/
def isP1Char (c : Char) : Bool :=
  ¬ (c = '<' ∨ c = '>' ∨ c = '\x0d' ∨ c = '\n' ∨ c = '"' ∨ c = '\x27')

/-- Path character of pattern 2: `[^:<>\r\n"']`. -/
def isP2Char (c : Char) : Bool := isP1Char c ∧ ¬ (c = ':')

/-- The common tail `line(?:[^0-9]{0,80})?(?P<line>\d+)`: at most 80
non-digit characters may separate `line` from the digits (greedy, but
only the run ending at the first digit can complete the match). -/
def lineTail (s : Str) : Option (Nat × Nat) :=
  let run := s.takeWhile (fun c => ¬ isDigit c)
  if run.length ≤ 80 then
    let digits := (s.drop run.length).takeWhile isDigit
    match digits with
    | [] => none
    | _ :: _ => some (run.length + digits.length, digitsToNat digits)
  else none

/-- Continuation of pattern 1 after the extension:
`(?:\s*</b>)?\s*on\s*line…`.  When `</b>` follows the whitespace it must
be consumed (otherwise `on` would have to start at `<`); when it does
not, the skipped group leaves the whitespace to the following `\s*`. -/
def p1Cont (s : Str) : Option (Nat × Nat) :=
  let w0 := wsLen s
  let (bn, s1) :=
    if litPre true (st "</b>") (s.drop w0) then (w0 + 4, (s.drop w0).drop 4)
    else (0, s)
  let w1 := wsLen s1
  let s2 := s1.drop w1
  if litPre true (st "on") s2 then
    let s3 := s2.drop 2
    let w2 := wsLen s3
    let s4 := s3.drop w2
    if litPre true (st "line") s4 then
      match lineTail (s4.drop 4) with
      | some (tn, ln) => some (bn + w1 + 2 + w2 + 4 + tn, ln)
      | none => none
    else none
  else none

/-- The lazy `…+?\.EXT` loop: smallest viable path length first,
extension alternatives in pattern order, each candidate validated
against the continuation.  Returns `(path_len, cont_len, line)`, the
path length including the dot and extension. -/
def pathLoop (fuel : Nat) (isChar : Char → Bool) (cont : Str → Option (Nat × Nat))
    (s : Str) (k : Nat) : Option (Nat × Nat × Nat) :=
  match fuel with
  | 0 => none
  | fuel + 1 =>
    match (s.drop k).head? with
    | none => none
    | some c =>
      if isChar c then
        let k' := k + 1
        if (s.drop k').head? = some '.' then
          let tryExt := extList.findSome? (fun ext =>
            if litPre true ext (s.drop (k' + 1)) then
              match cont (s.drop (k' + 1 + ext.length)) with
              | some (cn, ln) => some (k' + 1 + ext.length, cn, ln)
              | none => none
            else none)
          match tryExt with
          | some r => some r
          | none => pathLoop fuel isChar cont s k'
        else pathLoop fuel isChar cont s k'
      else none

/-- Entry point of the lazy path loop. -/
def pathAndCont (isChar : Char → Bool) (cont : Str → Option (Nat × Nat))
    (s : Str) : Option (Nat × Nat × Nat) :=
  pathLoop (s.length + 1) isChar cont s 0

/-- Attempt pattern 1 at a position:
`in\s*(?:<b>\s*)?(?P<path>[^<>\r\n"']+?\.EXT)(?:\s*</b>)?\s*on\s*line…`
(case-insensitive).  Returns `(consumed, path, line)`. -/
def matchP1 (s : Str) : Option (Nat × Str × Nat) :=
  if litPre true (st "in") s then
    let s0 := s.drop 2
    let w0 := wsLen s0
    let s1 := s0.drop w0
    let (bn, s2) :=
      if litPre true (st "<b>") s1 then
        let w1 := wsLen (s1.drop 3)
        (3 + w1, (s1.drop 3).drop w1)
      else (0, s1)
    match pathAndCont isP1Char p1Cont s2 with
    | some (plen, cn, ln) =>
      some (2 + w0 + bn + plen + cn, s2.take plen, ln)
    | none => none
  else none

/-- Continuation of pattern 2 after the extension:
`\s+(?:on\s*)?line…` — at least one whitespace, then an `on` that must
be taken when present (`line` cannot start at `o`). -/
def p2Cont (s : Str) : Option (Nat × Nat) :=
  let w0 := wsLen s
  if w0 = 0 then none else
  let s1 := s.drop w0
  let (onn, s2) :=
    if litPre true (st "on") s1 then
      let w1 := wsLen (s1.drop 2)
      (2 + w1, (s1.drop 2).drop w1)
    else (0, s1)
  if litPre true (st "line") s2 then
    match lineTail (s2.drop 4) with
    | some (tn, ln) => some (w0 + onn + 4 + tn, ln)
    | none => none
  else none

/-- Attempt pattern 2 at a position:
`(?:in|at)\s+(?P<path>(?:/|[A-Za-z]:\\)[^:<>\r\n"']+?\.EXT)\s+(?:on\s*)?line…`
(case-insensitive).  Returns `(consumed, path, line)`. -/
def matchP2 (s : Str) : Option (Nat × Str × Nat) :=
  let kw : Option Nat :=
    if litPre true (st "in") s then some 2
    else if litPre true (st "at") s then some 2
    else none
  match kw with
  | none => none
  | some kn =>
    let s0 := s.drop kn
    let w0 := wsLen s0
    if w0 = 0 then none else
    let s1 := s0.drop w0
    let pre : Option Nat :=
      match s1.head? with
      | some '/' => some 1
      | some c =>
        if isAlpha c ∧ (s1.drop 1).head? = some ':' ∧ (s1.drop 2).head? = some '\\' then
          some 3
        else none
      | none => none
    match pre with
    | none => none
    | some pn =>
      match pathAndCont isP2Char p2Cont (s1.drop pn) with
      | some (plen, cn, ln) =>
        some (kn + w0 + pn + plen + cn, s1.take (pn + plen), ln)
      | none => none

/-- `finditer` with a generic matcher: leftmost matches, resuming after
each match's end (all matches here consume at least one character). -/
def reFinditer (fuel : Nat) (matcher : Str → Option (Nat × Str × Nat))
    (s : Str) : List (Str × Nat) :=
  match fuel, s with
  | 0, _ => []
  | _, [] => []
  | fuel + 1, c :: cs =>
    match matcher (c :: cs) with
    | some (len, p, ln) =>
      (p, ln) :: reFinditer fuel matcher ((c :: cs).drop (max len 1))
    | none => reFinditer fuel matcher cs

/-- Per-match body of the extraction loop: strip the path and keep the
pair only when it is non-empty (the `if p:` guard). -/
def stripTargets (l : List (Str × Nat)) : List (Str × Nat) :=
  l.filterMap (fun t => if pyStrip t.1 = [] then none else some (pyStrip t.1, t.2))

/-- All raw `(path, line)` pairs of both patterns, pattern 1 first, as
the loop over `_PATH_RES` produces them. -/
def rawTargets (s : Str) : List (Str × Nat) :=
  stripTargets (reFinditer (s.length + 1) matchP1 s) ++
    stripTargets (reFinditer (s.length + 1) matchP2 s)

/-- Key of the dedup pass: `(os.path.normpath(p), ln)`. -/
def targetKey (t : Str × Nat) : Str × Nat := (normpath t.1, t.2)

/-- The dedup pass: keep the first pair per `(normalized path, line)`. -/
def dedupTargets (seen : List (Str × Nat)) : List (Str × Nat) → List (Str × Nat)
  | [] => []
  | t :: ts =>
    if seen.contains (targetKey t) then dedupTargets seen ts
    else t :: dedupTargets (targetKey t :: seen) ts

/-- The entity decoding `extract_php_targets` applies before matching. -/
def decodeEntities (input : Str) : Str :=
  replaceAll (st "&lt;br/&gt;") (st "<br/>")
    (replaceAll (st "&lt;br /&gt;") (st "<br />")
      (replaceAll (st "&quot;") (st "\"") input))

/-- `extract_php_targets`: decode the handled HTML entities, run both
patterns, deduplicate by normalised path and line. -/
def extract_php_targets (input : Str) : List (Str × Nat) :=
  if input = [] then [] else
  dedupTargets [] (rawTargets (decodeEntities input))

/-! ## Rule engine (`apply_rule_based_fix`)

Rules come from external YAML configuration.  The engine is modelled
for rules whose `search` patterns are regex-literal (no metacharacters)
and whose `replace` templates contain no backslashes: such patterns
always compile, `re.subn` coincides with literal substitution, and the
`bad_regex`/`bad_replace` branches are unreachable. -/

/-- A loaded rule (`{id, search, replace}`; the `note` field is unused
by the engine). -/
structure Rule where
  rid : Str
  search : Str
  replace : Str
deriving Repr, DecidableEq

/-- `_sanitize_replacement`: double every backslash not followed by a
digit, `g<`, or another backslash (the zero-width lookahead leaves the
following characters unconsumed). -/
def sanitize_replacement : Str → Str
  | [] => []
  | c :: cs =>
    if c = '\\' then
      let hd : Bool :=
        match cs.head? with
        | some d => isDigit d ∨ d = '\\'
        | none => false
      if hd ∨ litPre false (st "g<") cs then c :: sanitize_replacement cs
      else c :: c :: sanitize_replacement cs
    else c :: sanitize_replacement cs

/-- `re.subn` for a literal pattern: non-overlapping left-to-right
replacement with the match count.  The empty pattern never reaches this
function (`if not search: continue` guards it); it is mapped to the
identity here. -/
def subnLitFuel (fuel : Nat) (ci : Bool) (pat rep : Str) (s : Str) : Str × Nat :=
  match fuel, s with
  | 0, s => (s, 0)
  | _, [] => ([], 0)
  | fuel + 1, c :: cs =>
    if pat ≠ [] ∧ litPre ci pat (c :: cs) then
      let r := subnLitFuel fuel ci pat rep ((c :: cs).drop pat.length)
      (rep ++ r.1, r.2 + 1)
    else
      let r := subnLitFuel fuel ci pat rep cs
      (c :: r.1, r.2)

/-- `re.subn` entry point for literal patterns. -/
def subnLit (ci : Bool) (pat rep : Str) (s : Str) : Str × Nat :=
  subnLitFuel (s.length + 1) ci pat rep s

/-- Decimal rendering of a match count for the `"{id} x{n}"` note. -/
def natToStr (n : Nat) : Str := (toString n).data

/-- One rule application of `apply_rule_based_fix`'s loop: empty
`search` is skipped; a matching rule updates the current text and
appends its note.  (`re.MULTILINE` is irrelevant to literal patterns.) -/
def applyOneRule (acc : Str × Bool × List Str) (r : Rule) : Str × Bool × List Str :=
  if r.search = [] then acc
  else
    let sub := subnLit false r.search (sanitize_replacement r.replace) acc.1
    if 0 < sub.2 then
      (sub.1, true, acc.2.2 ++ [r.rid ++ (' ' :: 'x' :: natToStr sub.2)])
    else acc

/-- `apply_rule_based_fix`: every rule in order against the
progressively updated text; notes joined with `" ; "`. -/
def apply_rule_based_fix (rules : List Rule) (src : Str) : Str × Bool × Str :=
  let r := rules.foldl applyOneRule (src, false, [])
  (r.1, r.2.1, joinSep (st " ; ") r.2.2)

/-! ## Patch applier state

The on-disk filesystem is a partial map from paths to contents; the
Python `shutil.copyfile`/`open(...).write` calls become point updates.
A failed write is modelled as leaving the file untouched. -/

/-- The modelled filesystem. -/
def FS := Str → Option Str

/-- Point update (a completed write of `v` to `p`). -/
def updFS (fs : FS) (p : Str) (v : Str) : FS :=
  fun q => if q = p then some v else fs q

/-! ## Rule-based Fixer of `agents.py` -/

/-- `Fixer._apply_rule_to_file`: read, substitute (`re.sub` with
`re.I`), back up unconditionally, write, lint, revert on lint failure.
`lint` models the external `php -l` verdict as a function of the
written content. -/
def apply_rule_to_file (lint : Str → Bool) (rule : Rule) (path : Str)
    (fs : FS) : (Bool × Str) × FS :=
  match fs path with
  | none => ((false, st "error: read"), fs)
  | some src =>
    let new := (subnLit true rule.search rule.replace src).1
    if new ≠ src then
      let fs1 := updFS fs (path ++ st ".bak") src
      let fs2 := updFS fs1 path new
      if lint new then ((true, st "patched: " ++ rule.rid), fs2)
      else
        let restored :=
          match fs2 (path ++ st ".bak") with
          | some b => updFS fs2 path b
          | none => fs2
        ((false, st "lint failed; reverted"), restored)
    else ((false, st "no change"), fs)

/-- The superglobal pass of `_wrap_array_access_with_coalesce`:
`(\$_(?:GET|POST|REQUEST|COOKIE)\[['\"]KEY['\"]\])(?!\s*\?\?)` under
`re.I` (the escaped key is matched case-insensitively too).  Returns the
matched length. -/
def matchSuperAt (key : Str) (s : Str) : Option Nat :=
  match s with
  | '$' :: '_' :: rest =>
    let nm : Option Nat :=
      if litPre true (st "GET") rest then some 3
      else if litPre true (st "POST") rest then some 4
      else if litPre true (st "REQUEST") rest then some 7
      else if litPre true (st "COOKIE") rest then some 6
      else none
    match nm with
    | none => none
    | some n =>
      let r1 := rest.drop n
      match r1.head? with
      | some '[' =>
        let r2 := r1.drop 1
        match r2.head? with
        | some q1 =>
          if q1 = '\x27' ∨ q1 = '"' then
            let r3 := r2.drop 1
            if litPre true key r3 then
              let r4 := r3.drop key.length
              match r4.head?, (r4.drop 1).head? with
              | some q2, some ']' =>
                if q2 = '\x27' ∨ q2 = '"' then
                  let len := 2 + n + 1 + 1 + key.length + 2
                  let after := s.drop len
                  -- negative lookahead (?!\s*\?\?)
                  if litPre false (st "??") (after.drop (wsLen after)) then none
                  else some len
                else none
              | _, _ => none
            else none
          else none
        | none => none
      | _ => none
  | _ => none

/-- The any-variable pass:
`(\$[A-Za-z_][A-Za-z0-9_]*\[['\"]KEY['\"]\])(?!\s*\?\?)`
(case-sensitive).  The maximal identifier run is exact: a shorter run
would leave an identifier character where `[` is required. -/
def matchAnyVarAt (key : Str) (s : Str) : Option Nat :=
  match s with
  | '$' :: rest =>
    let nm := rest.takeWhile isIdentChar
    match nm.head? with
    | some c0 =>
      if isIdentStart c0 then
        let r1 := rest.drop nm.length
        match r1.head? with
        | some '[' =>
          let r2 := r1.drop 1
          match r2.head? with
          | some q1 =>
            if q1 = '\x27' ∨ q1 = '"' then
              let r3 := r2.drop 1
              if litPre false key r3 then
                let r4 := r3.drop key.length
                match r4.head?, (r4.drop 1).head? with
                | some q2, some ']' =>
                  if q2 = '\x27' ∨ q2 = '"' then
                    let len := 1 + nm.length + 1 + 1 + key.length + 2
                    let after := s.drop len
                    if litPre false (st "??") (after.drop (wsLen after)) then none
                    else some len
                  else none
                | _, _ => none
              else none
            else none
          | none => none
        | _ => none
      else none
    | none => none
  | _ => none

/-- `re.sub` of a coalescing pass: wrap each match as `(… ?? null)`. -/
def coalescePass (fuel : Nat) (matcher : Str → Option Nat) (s : Str) : Str :=
  match fuel, s with
  | 0, s => s
  | _, [] => []
  | fuel + 1, c :: cs =>
    match matcher (c :: cs) with
    | some len =>
      ('(' :: (c :: cs).take len) ++ st " ?? null)" ++
        coalescePass fuel matcher ((c :: cs).drop (max len 1))
    | none => c :: coalescePass fuel matcher cs

/-- `_wrap_array_access_with_coalesce`: the superglobal pass, then the
any-variable pass (already-wrapped accesses are skipped by the
`?? `-lookahead). -/
def wrap_array_access_with_coalesce (key : Str) (src : Str) : Str :=
  let s2 := coalescePass (src.length + 1) (matchSuperAt key) src
  coalescePass (s2.length + 1) (matchAnyVarAt key) s2

/-- POSIX `os.path.basename`. -/
def basename (p : Str) : Str := ((splitChar '/' p).getLast?).getD []

/-- `Fixer._apply_key_fix_to_file`: coalesce a key, back up, write,
lint PHP-like files only, revert on lint failure. -/
def apply_key_fix_to_file (lint : Str → Bool) (key : Str) (path : Str)
    (fs : FS) : (Bool × Str) × FS :=
  if path = [] then ((false, st "file not found: " ++ path), fs)
  else
    match fs path with
    | none => ((false, st "file not found: " ++ path), fs)
    | some src =>
      let new := wrap_array_access_with_coalesce key src
      if new ≠ src then
        let fs1 := updFS fs (path ++ st ".bak") src
        let fs2 := updFS fs1 path new
        let phpish :=
          (st ".php").isSuffixOf path ∨ (st ".phtml").isSuffixOf path ∨
            (st ".tpl").isSuffixOf path
        if phpish ∧ ¬ lint new then
          let restored :=
            match fs2 (path ++ st ".bak") with
            | some b => updFS fs2 path b
            | none => fs2
          ((false, st "lint failed; reverted"), restored)
        else
          ((true, st "coalesced " ++ ('\x27' :: key) ++ ('\x27' :: st " in ") ++
            basename path), fs2)
      else ((false, st "no change"), fs)

/-! ## Generative fallback (`llm_fix`) and the main applier
(`fix_selected`)

The chat collaborator is external: it is modelled as a response oracle
keyed by the file path (`none` = the call raised).  The prompt text
(`_llm_prompt`, `style_hint`, `_snippet_by_lines`) only feeds that
external call and is not modelled. -/

/-- The backtick character (0x60). -/
def btick : Char := Char.ofNat 96

/-- Minimal helper: the last index at or after `j` where ``` occurs. -/
def lastFenceFrom (fuel j : Nat) (s : Str) : Option Nat :=
  match fuel, s with
  | 0, _ => none
  | _, [] => none
  | fuel + 1, c :: cs =>
    let here : Option Nat :=
      if c = btick ∧ cs.head? = some btick ∧ (cs.drop 1).head? = some btick then some j
      else none
    match lastFenceFrom fuel (j + 1) cs with
    | some k => some k
    | none => here

/-- `re.search(r"```(?:php)?(.*)```", out, re.S | re.I)`: leftmost
opening fence (with optional case-insensitive `php`) whose greedy group
reaches the last closing fence; returns the group.  When `php` is
consumed no closing fence can hide inside those three letters, so the
skipped-`php` backtrack never changes the result. -/
def extractFenced (fuel i : Nat) (s : Str) : Option Str :=
  match fuel, s with
  | 0, _ => none
  | _, [] => none
  | fuel + 1, c :: cs =>
    if c = btick ∧ cs.head? = some btick ∧ (cs.drop 1).head? = some btick then
      let j := if litPre true (st "php") (cs.drop 2) then i + 6 else i + 3
      let rest := (c :: cs).drop (j - i)
      match lastFenceFrom (rest.length + 1) 0 rest with
      | some k => some (rest.take k)
      | none => extractFenced fuel (i + 1) cs
    else extractFenced fuel (i + 1) cs

/-- `llm_fix`: strip the chat response (as `chat()` does), extract a
fenced block if present, accept only a non-empty result that differs
from the input.  A raised call is reported, never propagated. -/
def llm_fix (resp : Option Str) (code : Str) : Str × Bool × Str :=
  match resp with
  | none => (code, false, st "llm:error")
  | some raw =>
    let out := pyStrip raw
    let fixed :=
      match extractFenced (out.length + 1) 0 out with
      | some g => pyStrip g
      | none => pyStrip out
    if fixed ≠ [] ∧ fixed ≠ code then (fixed, true, st "llm")
    else (code, false, st "llm:no_change")

/-- An entry of `fix_selected`'s `items` list. -/
structure FixItem where
  file : Str
  lines : List Nat
deriving Repr, DecidableEq

/-- One per-file result dict of `fix_selected` (`backup` is present
only on records that reached the backup step). -/
structure PatchRecord where
  file : Str
  changed : Bool
  method : Str
  note : Str
  backup : Option Str
deriving Repr, DecidableEq

/-- `posixpath.isabs`. -/
def isAbs (p : Str) : Bool := litPre false (st "/") p

/-- `posixpath.join` of two components. -/
def posixJoin (a b : Str) : Str :=
  if isAbs b then b
  else if a = [] ∨ a.getLast? = some '/' then a ++ b
  else a ++ '/' :: b

/-- `.lower().endswith(suffix)`. -/
def lowerEndsWith (p suffix : Str) : Bool :=
  suffix.isSuffixOf (p.map lowerC)

/-- The absolute path `fix_selected` resolves an item to. -/
def absPathOf (maps : List PathMap) (root : Str) (it : FixItem) : Str :=
  let candidate := remap_host_path maps (pyStrip it.file)
  if isAbs candidate then candidate else normpath (posixJoin root candidate)

/-- The per-file text pipeline of `fix_selected` (stages 1–3): rules,
then the declarator for `.php` files in `declare` mode, then the
generative fallback only when nothing changed yet.  Returns
`(text, changed, method, note)`. -/
def pipelineOn (rules : List Rule) (chatResp : Str → Option Str) (dynMode : Str)
    (abs_path : Str) (src : Str) : Str × Bool × Str × Str :=
  let r1 := apply_rule_based_fix rules src
  let code1 := r1.1
  let changed1 := r1.2.1
  let note1 := r1.2.2
  let method1 := if changed1 then st "rules" else st "rules:none"
  let dyn :=
    if dynMode = st "declare" ∧ lowerEndsWith abs_path (st ".php") then
      fix_dynamic_properties_declare (infer_style src) code1
    else (code1, false, [])
  let code2 := if dyn.2.1 then dyn.1 else code1
  let changed2 := changed1 ∨ dyn.2.1
  let method2 :=
    if dyn.2.1 then
      if 0 < countSub (st "rules") method1 then method1 ++ st "+dyn:declare"
      else st "dyn:declare"
    else method1
  let note2 :=
    if dyn.2.1 ∧ dyn.2.2 ≠ [] then
      (if note1 = [] then dyn.2.2 else note1 ++ st " ; " ++ dyn.2.2)
    else note1
  let llm :=
    if ¬ changed2 then llm_fix (chatResp abs_path) code2
    else (code2, false, [])
  let code3 := if llm.2.1 then llm.1 else code2
  let changed3 := changed2 ∨ llm.2.1
  let method3 := if llm.2.1 then st "llm" else method2
  let note3 := if llm.2.1 then llm.2.2 else note2
  (code3, changed3, method3, note3)

/-- One iteration of `fix_selected`'s loop over `items`, threading
`(seen_files, results, filesystem)`.  `backupOk`/`writeOk` inject the
filesystem failures the code catches (`except: pass` around the backup
copy; the `write_error` record on a failed write). -/
def processItem (maps : List PathMap) (rules : List Rule)
    (chatResp : Str → Option Str) (backupOk writeOk : Bool)
    (root : Str) (dynMode : Str)
    (stc : List Str × List PatchRecord × FS) (it : FixItem) :
    List Str × List PatchRecord × FS :=
  let (seen, recs, fs) := stc
  if pyStrip it.file = [] then stc
  else
    let abs_path := absPathOf maps root it
    if seen.contains abs_path then stc
    else
      let seen' := seen ++ [abs_path]
      match fs abs_path with
      | none => (seen', recs ++ [⟨abs_path, false, st "skip", st "not_found", none⟩], fs)
      | some src =>
        let backup := abs_path ++ st ".bak"
        let fs1 := if fs backup = none ∧ backupOk then updFS fs backup src else fs
        let p := pipelineOn rules chatResp dynMode abs_path src
        let new_code := p.1
        let changed := p.2.1
        let method := p.2.2.1
        let note := p.2.2.2
        if changed ∧ new_code ≠ src then
          if writeOk then
            (seen', recs ++ [⟨abs_path, changed, method, note, some backup⟩],
              updFS fs1 abs_path new_code)
          else
            (seen', recs ++ [⟨abs_path, false, method, st "write_error", some backup⟩], fs1)
        else
          (seen', recs ++ [⟨abs_path, changed, method, note, some backup⟩], fs1)

/-- Normalisation of `options.get("dynprops") or "declare"` followed by
`.lower()`. -/
def dynModeOf (dynModeOpt : Option Str) : Str :=
  let dm0 := dynModeOpt.getD []
  (if dm0 = [] then st "declare" else dm0).map lowerC

/-- `fix_selected`: resolve, deduplicate and patch each item's file,
producing one record per processed file and the final filesystem.
`rules` stands for `load_rules()` (external YAML configuration). -/
def fix_selected (maps : List PathMap) (rules : List Rule)
    (chatResp : Str → Option Str) (backupOk writeOk : Bool)
    (root : Str) (items : List FixItem) (dynModeOpt : Option Str)
    (fs : FS) : List PatchRecord × FS :=
  let r := items.foldl
    (processItem maps rules chatResp backupOk writeOk root (dynModeOf dynModeOpt))
    ([], [], fs)
  (r.2.1, r.2.2)

/-! ## Concrete fixtures used by the theorems -/

/-- A class whose body uses `$this->foo` plainly, `$this->bar` only in a
double-quoted string, and `$this->baz` only in a line comment. -/
def c1_src : Str :=
  st "class A \x7b\n    function f() \x7b\n        $this->foo = 1;\n        echo \"$this->bar\";\n        // $this->baz\n    \x7d\n\x7d\n"

/-- What the declarator produces on `c1_src`. -/
def c1_out : Str :=
  st "class A \x7b    var $bar;\n    var $baz;\n    var $foo;\n\n    function f() \x7b\n        $this->foo = 1;\n        echo \"$this->bar\";\n        // $this->baz\n    \x7d\n\x7d\n"

/-- The end-to-end scenario input of the specification. -/
def c2_src : Str := st "class Foo \x7b function bar()\x7b $this->x = 1; \x7d \x7d"

/-- What the declarator produces on `c2_src`. -/
def c2_out : Str :=
  st "class Foo \x7b    var $x;\n function bar()\x7b $this->x = 1; \x7d \x7d"

/-- A single-line class whose last declaration is not followed by a
newline inside the body, so the insertion point is mid-line. -/
def c4_src : Str :=
  st "class A \x7b public $a; function f()\x7b $this->b = 1; \x7d \x7d"

/-- A class whose body has no declarations and no docblock: the
insertion point is the body start. -/
def c4w_src : Str :=
  st "class A \x7b\n    function f() \x7b\n        $this->w = 1;\n    \x7d\n\x7d\n"

/-- Rule `a → aa` (re-matches its own output on a second run). -/
def ruleGrow : Rule := ⟨st "r1", st "a", st "aa"⟩

/-- Rule `a → b`. -/
def ruleAB : Rule := ⟨st "r1", st "a", st "b"⟩

/-- Rule whose replacement equals its match (`b → b`). -/
def ruleIdent : Rule := ⟨st "r", st "b", st "b"⟩

/-- Rule `b → c`, matched only by `ruleAB`'s output. -/
def ruleBC : Rule := ⟨st "r2", st "b", st "c"⟩

/-- A one-file filesystem holding `/a.php` with content `abc`. -/
def fsA : FS := fun q => if q = st "/a.php" then some (st "abc") else none

/-- A one-file filesystem holding `/f.php` with content `a`. -/
def fsF : FS := fun q => if q = st "/f.php" then some (st "a") else none

/-- Markup repeating the same `(path, line)` evidence twice. -/
def dupMarkup : Str :=
  st "in <b>/var/www/app/index.php</b> on line <b>42</b><br/>in <b>/var/www/app/index.php</b> on line <b>42</b>"

/-- A path under the hardcoded fallback mapping's prefix. -/
def kangoPath : Str := st "/home/www-virtual/kangoiryo.jp/x.php"

/-- Where the fallback mapping sends `kangoPath` on a POSIX host. -/
def kangoMapped : Str :=
  st "D:\\XAMPP\\htdocs\\kangoiryo.jp\\branches\\mungunshagai/x.php"

/-- Whether a path carries the backup suffix. -/
def bakSuffixed (p : Str) : Bool := (st ".bak").isSuffixOf p

/-! ## General helper lemmas -/

/-- A path never equals itself with the `.bak` suffix appended. -/
theorem ne_append_bak (p : Str) : p ≠ p ++ st ".bak" := by
  intro h
  have := congrArg List.length h
  simp [st] at this

/-- The `.bak` path never equals its own base. -/
theorem bak_ne_base (p : Str) : p ++ st ".bak" ≠ p :=
  fun h => ne_append_bak p h.symm

set_option maxRecDepth 400000

/-- Claim C1, counterexample: on a class body where `$this->bar` occurs
only inside a double-quoted string and `$this->baz` only inside a line
comment, the declarator inserts declarations for `bar` and `baz` as
well — the reference scan runs on the raw body text, so string/comment
spans are not excluded. -/
theorem C1_counterexample :
    (fix_dynamic_properties_declare (infer_style c1_src) c1_src).2.1 = true ∧
    countSub (st "var $bar;") c1_src = 0 ∧
    countSub (st "var $baz;") c1_src = 0 ∧
    0 < countSub (st "var $bar;")
      (fix_dynamic_properties_declare (infer_style c1_src) c1_src).1 ∧
    0 < countSub (st "var $baz;")
      (fix_dynamic_properties_declare (infer_style c1_src) c1_src).1 := by
  decide

/-- Claim C1, amended: the Dynamic-Property Declarator declares `foo`,
`bar` and `baz` alike on this input — the lexical modes of the class
scanner only delimit region boundaries, and `_THIS_PROP_RE` is applied
to the raw body text, so references inside string literals and comments
are collected too.  The full output and note are computed exactly. -/
theorem C1_amended :
    fix_dynamic_properties_declare (infer_style c1_src) c1_src =
      (c1_out, true, st "declare[var]: bar, baz, foo") := by
  decide

/-- Claim C2, counterexample: on the specification's end-to-end input
(no declarations at all, so every style count is zero) the declarator
inserts `var $x;`, not `public $x;` — the `var_count >= (pub+pro+pri)`
test also succeeds at `0 >= 0`. -/
theorem C2_counterexample :
    (fix_dynamic_properties_declare (infer_style c2_src) c2_src).1 = c2_out ∧
    countSub (st "public") c2_out = 0 ∧
    0 < countSub (st "var $x;") c2_out := by
  decide

/-- Claim C4, counterexample: the declarator is not idempotent.  On a
single-line class whose last property declaration has no following
newline inside the body, the insertion lands mid-line, the inserted
`var $b;` is not matched by the `^`-anchored declaration pattern on the
second run, and the declarator inserts again. -/
theorem C4_counterexample :
    (fix_dynamic_properties_declare (infer_style c4_src) c4_src).2.1 = true ∧
    (fix_dynamic_properties_declare (infer_style c4_src)
      (fix_dynamic_properties_declare (infer_style c4_src) c4_src).1).2.1 = true ∧
    (fix_dynamic_properties_declare (infer_style c4_src)
      (fix_dynamic_properties_declare (infer_style c4_src) c4_src).1).1 ≠
      (fix_dynamic_properties_declare (infer_style c4_src) c4_src).1 := by
  decide

/-- Claim C3, counterexample: `Fixer._apply_rule_to_file` copies the
file over `F.bak` before every write, so a second run that also changes
`F` overwrites the backup: after two runs of the rule `a → aa` on a
file holding `a`, the backup holds `aa`, not the pre-run content `a`. -/
theorem C3_counterexample :
    fsF (st "/f.php") = some (st "a") ∧
    (apply_rule_to_file (fun _ => true) ruleGrow (st "/f.php") fsF).1.1 = true ∧
    (apply_rule_to_file (fun _ => true) ruleGrow (st "/f.php")
      (apply_rule_to_file (fun _ => true) ruleGrow (st "/f.php") fsF).2).1.1 = true ∧
    (apply_rule_to_file (fun _ => true) ruleGrow (st "/f.php")
      (apply_rule_to_file (fun _ => true) ruleGrow (st "/f.php") fsF).2).2
        (st "/f.php.bak") = some (st "aa") ∧
    ¬ ((apply_rule_to_file (fun _ => true) ruleGrow (st "/f.php")
      (apply_rule_to_file (fun _ => true) ruleGrow (st "/f.php") fsF).2).2
        (st "/f.php.bak") = some (st "a")) := by
  decide

/-- Claim C6, counterexample: with no parsed path-map configuration the
loader installs the hardcoded fallback mapping, not the empty map, so
`remap_host_path` is not the identity (even up to normalisation) on
paths under the fallback prefix. -/
theorem C6_counterexample :
    load_path_maps [] ≠ [] ∧
    remap_host_path (load_path_maps []) kangoPath ≠ normpath kangoPath ∧
    remap_host_path (load_path_maps []) kangoPath ≠ kangoPath := by
  decide

/-- Claim C7, counterexample: a rule whose replacement equals its match
(`b → b` on `abc`) reports `changed = true` while the file's on-disk
content is byte-identical to the pre-patch content (the write is skipped
because the new text equals the original). -/
theorem C7_counterexample :
    (fix_selected (load_path_maps []) [ruleIdent] (fun _ => none) true true
      (st "/") [⟨st "/a.php", []⟩] none fsA).1 =
      [⟨st "/a.php", true, st "rules", st "r x1", some (st "/a.php.bak")⟩] ∧
    (fix_selected (load_path_maps []) [ruleIdent] (fun _ => none) true true
      (st "/") [⟨st "/a.php", []⟩] none fsA).2 (st "/a.php") = some (st "abc") := by
  decide

/-- Claim C2, amended: the declarator's dominant style is `var`
whenever the `var` count is at least the combined visibility count —
including the all-zero tie, where the spec's scenario therefore gets
`var $x;` at the body start and nothing else changed; among the
visibility keywords the maximum wins with ties preferring `public`. -/
theorem C2_amended :
    fix_dynamic_properties_declare (infer_style c2_src) c2_src =
      (c2_out, true, st "declare[var]: x") ∧
    (∀ src : Str,
      kwDeclCount (st "public") src + kwDeclCount (st "protected") src +
        kwDeclCount (st "private") src ≤ kwDeclCount (st "var") src →
      infer_prop_decl_style src = st "var") ∧
    (∀ src : Str,
      kwDeclCount (st "var") src < kwDeclCount (st "public") src +
        kwDeclCount (st "protected") src + kwDeclCount (st "private") src →
      kwDeclCount (st "protected") src ≤ kwDeclCount (st "public") src →
      kwDeclCount (st "private") src ≤ kwDeclCount (st "public") src →
      infer_prop_decl_style src = st "public") := by
  refine ⟨by decide, ?_, ?_⟩
  · intro src h
    simp [infer_prop_decl_style, h]
  · intro src h hpro hpri
    have h1 : ¬ (kwDeclCount (st "public") src + kwDeclCount (st "protected") src +
        kwDeclCount (st "private") src ≤ kwDeclCount (st "var") src) := by omega
    have h2 : max (kwDeclCount (st "public") src)
        (max (kwDeclCount (st "protected") src) (kwDeclCount (st "private") src)) =
        kwDeclCount (st "public") src := by omega
    simp [infer_prop_decl_style, h1, h2]

/-- Claim C2, witness: the style rule evaluated at concrete files —
a `var`-only file yields `var`, a `public`-majority file yields
`public`. -/
theorem C2_witness :
    kwDeclCount (st "public") (st "var $a;") + kwDeclCount (st "protected") (st "var $a;") +
      kwDeclCount (st "private") (st "var $a;") ≤ kwDeclCount (st "var") (st "var $a;") ∧
    infer_prop_decl_style (st "var $a;") = st "var" ∧
    kwDeclCount (st "var") (st "public $a;\npublic $b;\nvar $c;") <
      kwDeclCount (st "public") (st "public $a;\npublic $b;\nvar $c;") +
      kwDeclCount (st "protected") (st "public $a;\npublic $b;\nvar $c;") +
      kwDeclCount (st "private") (st "public $a;\npublic $b;\nvar $c;") ∧
    infer_prop_decl_style (st "public $a;\npublic $b;\nvar $c;") = st "public" :=
  ⟨by decide, C2_amended.2.1 (st "var $a;") (by decide), by decide,
    C2_amended.2.2 (st "public $a;\npublic $b;\nvar $c;") (by decide) (by decide) (by decide)⟩

/-- Claim C5: when the post-write lint fails, both appliers restore the
file from the just-written backup, leaving the on-disk content
byte-identical to the pre-run content, and report the reverted
outcome. -/
theorem C5_revert :
    (∀ (lint : Str → Bool) (rule : Rule) (path : Str) (fs : FS) (src : Str),
      fs path = some src →
      (subnLit true rule.search rule.replace src).1 ≠ src →
      lint (subnLit true rule.search rule.replace src).1 = false →
      (apply_rule_to_file lint rule path fs).1 = (false, st "lint failed; reverted") ∧
      (apply_rule_to_file lint rule path fs).2 path = some src) ∧
    (∀ (lint : Str → Bool) (key path : Str) (fs : FS) (src : Str),
      fs path = some src →
      wrap_array_access_with_coalesce key src ≠ src →
      (st ".php").isSuffixOf path = true →
      lint (wrap_array_access_with_coalesce key src) = false →
      (apply_key_fix_to_file lint key path fs).1 = (false, st "lint failed; reverted") ∧
      (apply_key_fix_to_file lint key path fs).2 path = some src) := by
  constructor
  · intro lint rule path fs src hread hne hlint
    simp [apply_rule_to_file, hread, hne, hlint, updFS, bak_ne_base path]
  · intro lint key path fs src hread hne hphp hlint
    have hpne : path ≠ [] := by
      intro h; subst h; simp [st, List.isSuffixOf] at hphp
    simp [apply_key_fix_to_file, hread, hne, hlint, hphp, hpne, updFS, bak_ne_base path]

/-- Claim C5, witness: a failing lint on the rule `a → b` applied to a
file holding `a` reverts the file to `a` and reports the revert. -/
theorem C5_witness :
    fsF (st "/f.php") = some (st "a") ∧
    (subnLit true ruleAB.search ruleAB.replace (st "a")).1 ≠ st "a" ∧
    (fun c => decide (c = st "a")) (subnLit true ruleAB.search ruleAB.replace (st "a")).1
      = false ∧
    (apply_rule_to_file (fun c => decide (c = st "a")) ruleAB (st "/f.php") fsF).1 =
      (false, st "lint failed; reverted") ∧
    (apply_rule_to_file (fun c => decide (c = st "a")) ruleAB (st "/f.php") fsF).2
      (st "/f.php") = some (st "a") :=
  ⟨by decide, by decide, by decide,
    (C5_revert.1 (fun c => decide (c = st "a")) ruleAB (st "/f.php") fsF (st "a")
      (by decide) (by decide) (by decide)).1,
    (C5_revert.1 (fun c => decide (c = st "a")) ruleAB (st "/f.php") fsF (st "a")
      (by decide) (by decide) (by decide)).2⟩

/-- Claim C6, amended: absent/empty/unparseable configuration decodes
to the empty list, which the loader replaces with the hardcoded
fallback mapping; the remap is the identity (up to POSIX normalisation)
exactly on paths that do not begin with the fallback prefix, and sends
prefix-matching paths into the fallback target. -/
theorem C6_amended :
    load_path_maps [] = [default_path_map] ∧
    (∀ p : Str, p ≠ [] →
      litPre false (st "/home/www-virtual/kangoiryo.jp")
        (p.map (fun c => if c = '\\' then '/' else c)) = false →
      remap_host_path (load_path_maps []) p = normpath p) ∧
    remap_host_path (load_path_maps []) kangoPath = kangoMapped := by
  refine ⟨by decide, ?_, by decide⟩
  intro p hp hpre
  have hmaps : load_path_maps [] = [default_path_map] := by decide
  have hsrc : (rstripChars ['/'] default_path_map.mfrom).map
      (fun c => if c = '\\' then '/' else c) = st "/home/www-virtual/kangoiryo.jp" := by
    decide
  simp [remap_host_path, hp, hmaps, List.findSome?, remapTry, hsrc, hpre]

/-- Claim C6, witness: a path outside the fallback prefix is returned
normalised and unchanged. -/
theorem C6_witness :
    (st "/other/y.php" : Str) ≠ [] ∧
    litPre false (st "/home/www-virtual/kangoiryo.jp")
      ((st "/other/y.php").map (fun c => if c = '\\' then '/' else c)) = false ∧
    remap_host_path (load_path_maps []) (st "/other/y.php") =
      normpath (st "/other/y.php") :=
  ⟨by decide, by decide, C6_amended.2.1 (st "/other/y.php") (by decide) (by decide)⟩

/-- Claim C8: the Rule Engine applies each rule to the progressively
updated text — the second rule's substitution runs on the first rule's
output — and notes are `"{id} x{count}"` joined with `" ; "`; a
concrete cascade (`a → b`, then `b → c` on input `a`) shows the second
rule matching text that only the first rule's output contains. -/
theorem C8_rule_order :
    (∀ (s : Str) (r1 r2 : Rule),
      r1.search ≠ [] → r2.search ≠ [] →
      0 < (subnLit false r1.search (sanitize_replacement r1.replace) s).2 →
      0 < (subnLit false r2.search (sanitize_replacement r2.replace)
            (subnLit false r1.search (sanitize_replacement r1.replace) s).1).2 →
      apply_rule_based_fix [r1, r2] s =
        ((subnLit false r2.search (sanitize_replacement r2.replace)
            (subnLit false r1.search (sanitize_replacement r1.replace) s).1).1,
          true,
          r1.rid ++ (' ' :: 'x' ::
            natToStr (subnLit false r1.search (sanitize_replacement r1.replace) s).2) ++
          st " ; " ++
          r2.rid ++ (' ' :: 'x' ::
            natToStr (subnLit false r2.search (sanitize_replacement r2.replace)
              (subnLit false r1.search (sanitize_replacement r1.replace) s).1).2))) ∧
    apply_rule_based_fix [ruleAB, ruleBC] (st "a") = (st "c", true, st "r1 x1 ; r2 x1") ∧
    (subnLit false ruleBC.search (sanitize_replacement ruleBC.replace) (st "a")).2 = 0 := by
  refine ⟨?_, by decide, by decide⟩
  intro s r1 r2 h1 h2 hn1 hn2
  simp [apply_rule_based_fix, applyOneRule, h1, h2, hn1, hn2, joinSep]

/-- Claim C8, witness: the cascade instantiated at `a → b`, `b → c` on
input `a`. -/
theorem C8_witness :
    (ruleAB.search : Str) ≠ [] ∧ (ruleBC.search : Str) ≠ [] ∧
    0 < (subnLit false ruleAB.search (sanitize_replacement ruleAB.replace) (st "a")).2 ∧
    0 < (subnLit false ruleBC.search (sanitize_replacement ruleBC.replace)
          (subnLit false ruleAB.search (sanitize_replacement ruleAB.replace) (st "a")).1).2 ∧
    apply_rule_based_fix [ruleAB, ruleBC] (st "a") =
      ((subnLit false ruleBC.search (sanitize_replacement ruleBC.replace)
          (subnLit false ruleAB.search (sanitize_replacement ruleAB.replace) (st "a")).1).1,
        true,
        ruleAB.rid ++ (' ' :: 'x' ::
          natToStr (subnLit false ruleAB.search (sanitize_replacement ruleAB.replace) (st "a")).2) ++
        st " ; " ++
        ruleBC.rid ++ (' ' :: 'x' ::
          natToStr (subnLit false ruleBC.search (sanitize_replacement ruleBC.replace)
            (subnLit false ruleAB.search (sanitize_replacement ruleAB.replace) (st "a")).1).2)) :=
  ⟨by decide, by decide, by decide, by decide,
    C8_rule_order.1 (st "a") ruleAB ruleBC (by decide) (by decide) (by decide) (by decide)⟩

/-- Claim C10: when the backup copy fails (and the `except: pass`
swallows it), processing continues — the file is still rewritten with
the pipeline's output, no backup exists afterwards, and the record
still reports the backup path. -/
theorem C10_backup_swallowed :
    ∀ (maps : List PathMap) (rules : List Rule) (chatResp : Str → Option Str)
      (root : Str) (dmOpt : Option Str) (fs : FS) (it : FixItem) (src : Str),
    pyStrip it.file ≠ [] →
    fs (absPathOf maps root it) = some src →
    fs (absPathOf maps root it ++ st ".bak") = none →
    (pipelineOn rules chatResp (dynModeOf dmOpt) (absPathOf maps root it) src).2.1 = true →
    (pipelineOn rules chatResp (dynModeOf dmOpt) (absPathOf maps root it) src).1 ≠ src →
    (fix_selected maps rules chatResp false true root [it] dmOpt fs).1 =
      [⟨absPathOf maps root it, true,
        (pipelineOn rules chatResp (dynModeOf dmOpt) (absPathOf maps root it) src).2.2.1,
        (pipelineOn rules chatResp (dynModeOf dmOpt) (absPathOf maps root it) src).2.2.2,
        some (absPathOf maps root it ++ st ".bak")⟩] ∧
    (fix_selected maps rules chatResp false true root [it] dmOpt fs).2
      (absPathOf maps root it) =
      some ((pipelineOn rules chatResp (dynModeOf dmOpt) (absPathOf maps root it) src).1) ∧
    (fix_selected maps rules chatResp false true root [it] dmOpt fs).2
      (absPathOf maps root it ++ st ".bak") = none := by
  intro maps rules chatResp root dmOpt fs it src hrel hsrc hbak hch hne
  simp [fix_selected, processItem, hrel, hsrc, hbak, hch, hne, updFS,
    bak_ne_base (absPathOf maps root it)]

/-- Claim C10, witness: the rule `a → b` on `/a.php` holding `abc`,
with the backup copy failing: the file becomes `bbc`, `/a.php.bak`
does not exist, and the record still names it. -/
theorem C10_witness :
    pyStrip (FixItem.mk (st "/a.php") []).file ≠ [] ∧
    fsA (absPathOf (load_path_maps []) (st "/") ⟨st "/a.php", []⟩) = some (st "abc") ∧
    fsA (absPathOf (load_path_maps []) (st "/") ⟨st "/a.php", []⟩ ++ st ".bak") = none ∧
    (pipelineOn [ruleAB] (fun _ => none) (dynModeOf none)
      (absPathOf (load_path_maps []) (st "/") ⟨st "/a.php", []⟩) (st "abc")).2.1 = true ∧
    (fix_selected (load_path_maps []) [ruleAB] (fun _ => none) false true (st "/")
      [⟨st "/a.php", []⟩] none fsA).2
      (absPathOf (load_path_maps []) (st "/") ⟨st "/a.php", []⟩ ++ st ".bak") = none :=
  ⟨by decide, by decide, by decide, by decide,
    (C10_backup_swallowed (load_path_maps []) [ruleAB] (fun _ => none) (st "/") none fsA
      ⟨st "/a.php", []⟩ (st "abc") (by decide) (by decide) (by decide) (by decide)
      (by decide)).2.2⟩

/-- Dedup pass output is a sublist of its input (first-seen order). -/
theorem dedupTargets_sublist : ∀ (seen : List (Str × Nat)) (l : List (Str × Nat)),
    (dedupTargets seen l).Sublist l := by
  intro seen l
  induction l generalizing seen with
  | nil => simp [dedupTargets]
  | cons t ts ih =>
    simp only [dedupTargets]
    split
    · exact (ih seen).cons t
    · exact (ih _).cons₂ t

theorem dedupTargets_nodup : ∀ (seen : List (Str × Nat)) (l : List (Str × Nat)),
    ((dedupTargets seen l).map targetKey).Nodup ∧
    (∀ t ∈ dedupTargets seen l, targetKey t ∉ seen) := by
  intro seen l
  induction l generalizing seen with
  | nil => simp [dedupTargets]
  | cons t ts ih =>
    simp only [dedupTargets]
    split
    · exact ⟨(ih seen).1, fun u hu => (ih seen).2 u hu⟩
    · rename_i hns
      have hmem : targetKey t ∉ seen := by
        intro h
        exact hns (by simpa [List.contains, List.elem_iff] using h)
      constructor
      · simp only [List.map_cons, List.nodup_cons]
        constructor
        · intro h
          rcases List.mem_map.mp h with ⟨u, hu, hk⟩
          exact ((ih (targetKey t :: seen)).2 u hu) (by simp [hk])
        · exact (ih (targetKey t :: seen)).1
      · intro u hu
        rcases List.mem_cons.mp hu with h | h
        · subst h; exact hmem
        · intro hs
          exact ((ih (targetKey t :: seen)).2 u h) (List.mem_cons_of_mem _ hs)

theorem dedupTargets_mem : ∀ (seen : List (Str × Nat)) (l : List (Str × Nat))
    (t : Str × Nat), t ∈ l → targetKey t ∉ seen →
    targetKey t ∈ (dedupTargets seen l).map targetKey := by
  intro seen l
  induction l generalizing seen with
  | nil => intro t h; simp at h
  | cons u us ih =>
    intro t ht hns
    simp only [dedupTargets]
    split
    · rename_i hc
      rcases List.mem_cons.mp ht with h | h
      · subst h
        exact absurd (by simpa [List.contains, List.elem_iff] using hc) hns
      · exact ih seen t h hns
    · rcases List.mem_cons.mp ht with h | h
      · subst h; simp
      · by_cases hk : targetKey t = targetKey u
        · simp [hk]
        · have := ih (targetKey u :: seen) t h (by simp [hk, hns])
          simp only [List.map_cons, List.mem_cons]
          exact Or.inr this

/-- Claim C9: targets are deduplicated by `(normalized path, line)`
with first-seen order preserved (the output is an order-preserving
sublist of the raw matches with pairwise-distinct keys covering every
raw match's key), empty input yields the empty list without error, and
repeated `in <b>P</b> on line <b>N</b>` markup collapses to one
entry. -/
theorem C9_extract :
    extract_php_targets [] = [] ∧
    (∀ s : Str, ((extract_php_targets s).map targetKey).Nodup) ∧
    (∀ s : Str, (extract_php_targets s).Sublist (rawTargets (decodeEntities s))) ∧
    (∀ (s : Str) (t : Str × Nat), s ≠ [] → t ∈ rawTargets (decodeEntities s) →
      targetKey t ∈ (extract_php_targets s).map targetKey) ∧
    extract_php_targets dupMarkup = [(st "/var/www/app/index.php", 42)] := by
  refine ⟨by decide, ?_, ?_, ?_, by decide⟩
  · intro s
    by_cases h : s = []
    · subst h; simp [extract_php_targets]
    · simp only [extract_php_targets, if_neg h]
      exact (dedupTargets_nodup [] _).1
  · intro s
    by_cases h : s = []
    · subst h; simp [extract_php_targets]
    · simp only [extract_php_targets, if_neg h]
      exact dedupTargets_sublist [] _
  · intro s t hs ht
    simp only [extract_php_targets, if_neg hs]
    exact dedupTargets_mem [] _ t ht (by simp)

/-- Claim C9, witness: the duplicated markup's key appears in the
collapsed output. -/
theorem C9_witness :
    (dupMarkup : Str) ≠ [] ∧
    (st "/var/www/app/index.php", 42) ∈ rawTargets (decodeEntities dupMarkup) ∧
    targetKey (st "/var/www/app/index.php", 42) ∈
      (extract_php_targets dupMarkup).map targetKey :=
  ⟨by decide, by decide,
    C9_extract.2.2.2.1 dupMarkup (st "/var/www/app/index.php", 42) (by decide) (by decide)⟩

/-- Paths other than the item's resolved file and its backup are
never written by one loop iteration. -/
theorem processItem_untouched
    (maps : List PathMap) (rules : List Rule) (chat : Str → Option Str)
    (bOk wOk : Bool) (root dyn : Str) (seen : List Str) (recs : List PatchRecord)
    (fs : FS) (it : FixItem) (q : Str)
    (h1 : q ≠ absPathOf maps root it)
    (h2 : q ≠ absPathOf maps root it ++ st ".bak") :
    (processItem maps rules chat bOk wOk root dyn (seen, recs, fs) it).2.2 q = fs q := by
  by_cases ha : pyStrip it.file = []
  · simp [processItem, ha]
  · by_cases hb : absPathOf maps root it ∈ seen
    · simp [processItem, ha, hb]
    · cases hsrc : fs (absPathOf maps root it) with
      | none => simp [processItem, ha, hb, hsrc]
      | some src =>
        simp [processItem, ha, hb, hsrc]
        split_ifs <;> simp [updFS, h1, h2]

/-- One iteration leaves `seen_files` unchanged or appends the
resolved path. -/
theorem processItem_seen
    (maps : List PathMap) (rules : List Rule) (chat : Str → Option Str)
    (bOk wOk : Bool) (root dyn : Str) (seen : List Str) (recs : List PatchRecord)
    (fs : FS) (it : FixItem) :
    (processItem maps rules chat bOk wOk root dyn (seen, recs, fs) it).1 = seen ∨
    (processItem maps rules chat bOk wOk root dyn (seen, recs, fs) it).1 =
      seen ++ [absPathOf maps root it] := by
  by_cases ha : pyStrip it.file = []
  · simp [processItem, ha]
  · by_cases hb : absPathOf maps root it ∈ seen
    · simp [processItem, ha, hb]
    · cases hsrc : fs (absPathOf maps root it) with
      | none => simp [processItem, ha, hb, hsrc]
      | some src =>
        simp [processItem, ha, hb, hsrc]
        split_ifs <;> simp

/-- One iteration never overwrites an existing backup file. -/
theorem processItem_bak_keep
    (maps : List PathMap) (rules : List Rule) (chat : Str → Option Str)
    (bOk wOk : Bool) (root dyn : Str) (seen : List Str) (recs : List PatchRecord)
    (fs : FS) (it : FixItem)
    (hab : bakSuffixed (absPathOf maps root it) = false)
    (b : Str) (c : Str) (hbs : bakSuffixed b = true) (hc : fs b = some c) :
    (processItem maps rules chat bOk wOk root dyn (seen, recs, fs) it).2.2 b = some c := by
  have hne1 : b ≠ absPathOf maps root it := by
    intro h; rw [h, hab] at hbs; exact Bool.noConfusion hbs
  by_cases hq : b = absPathOf maps root it ++ st ".bak"
  · subst hq
    by_cases ha : pyStrip it.file = []
    · simp [processItem, ha, hc]
    · by_cases hb : absPathOf maps root it ∈ seen
      · simp [processItem, ha, hb, hc]
      · cases hsrc : fs (absPathOf maps root it) with
        | none => simp [processItem, ha, hb, hsrc, hc]
        | some src =>
          simp [processItem, ha, hb, hsrc, hc]
          split_ifs <;>
            simp [updFS, bak_ne_base, hc, (by decide : ¬ (st ".bak" : Str) = [])]
  · rw [processItem_untouched maps rules chat bOk wOk root dyn seen recs fs it b hne1 hq]
    exact hc

/-- Record spec of one iteration: any new record describes the
resolved file, and the filesystem outcome follows the
backup/pipeline/write logic. -/
theorem processItem_records
    (maps : List PathMap) (rules : List Rule) (chat : Str → Option Str)
    (bOk wOk : Bool) (root dyn : Str) (seen : List Str) (recs : List PatchRecord)
    (fs : FS) (it : FixItem) :
    ∀ r ∈ (processItem maps rules chat bOk wOk root dyn (seen, recs, fs) it).2.1,
      r ∈ recs ∨
      (r.file = absPathOf maps root it ∧ absPathOf maps root it ∉ seen ∧
        (processItem maps rules chat bOk wOk root dyn (seen, recs, fs) it).1 =
          seen ++ [absPathOf maps root it] ∧
        (r.changed = false →
          (processItem maps rules chat bOk wOk root dyn (seen, recs, fs) it).2.2 r.file =
            fs r.file) ∧
        (∀ src, fs r.file = some src →
          (r.changed = true →
            (processItem maps rules chat bOk wOk root dyn (seen, recs, fs) it).2.2 r.file =
              some (if (pipelineOn rules chat dyn r.file src).1 ≠ src ∧ wOk = true
                    then (pipelineOn rules chat dyn r.file src).1 else src)) ∧
          (bOk = true → fs (r.file ++ st ".bak") = none →
            (processItem maps rules chat bOk wOk root dyn (seen, recs, fs) it).2.2
              (r.file ++ st ".bak") = some src))) := by
  intro r hr
  by_cases ha : pyStrip it.file = []
  · left; simpa [processItem, ha] using hr
  · by_cases hb : absPathOf maps root it ∈ seen
    · left; simpa [processItem, ha, hb] using hr
    · cases hsrc : fs (absPathOf maps root it) with
      | none =>
        simp [processItem, ha, hb, hsrc] at hr
        rcases hr with hr | hr
        · exact Or.inl hr
        · right
          subst hr
          refine ⟨rfl, hb, by simp [processItem, ha, hb, hsrc], ?_, ?_⟩
          · intro _; simp [processItem, ha, hb, hsrc]
          · intro src hs; rw [hsrc] at hs; exact Option.noConfusion hs
      | some src =>
        rcases hcond : decide ((pipelineOn rules chat dyn (absPathOf maps root it) src).2.1 = true
            ∧ ¬ (pipelineOn rules chat dyn (absPathOf maps root it) src).1 = src) with _ | _
        · -- condition false: no write attempted
          have hcond' := of_decide_eq_false hcond
          simp [processItem, ha, hb, hsrc, hcond'] at hr
          rcases hr with hr | hr
          · exact Or.inl hr
          · right
            subst hr
            refine ⟨rfl, hb, by simp [processItem, ha, hb, hsrc, hcond'], ?_, ?_⟩
            · intro _
              simp [processItem, ha, hb, hsrc, hcond', updFS]
              split_ifs <;> simp [updFS, bak_ne_base, hsrc]
            · intro src' hs
              rw [hsrc] at hs
              injection hs with hs; subst hs
              constructor
              · intro hch
                have hnew : (pipelineOn rules chat dyn (absPathOf maps root it) src).1 = src := by
                  by_contra hne
                  exact hcond' ⟨hch, hne⟩
                simp [processItem, ha, hb, hsrc, hcond', hnew, updFS]
                split_ifs <;> simp [updFS, bak_ne_base, hsrc]
              · intro hbOk hbn
                simp [processItem, ha, hb, hsrc, hcond', hbOk, hbn, updFS]
        · -- condition true: write attempted
          have hcond' := of_decide_eq_true hcond
          cases hwOk : wOk with
          | false =>
            simp [processItem, ha, hb, hsrc, hcond', hwOk] at hr
            rcases hr with hr | hr
            · exact Or.inl hr
            · right
              subst hr
              refine ⟨rfl, hb, by simp [processItem, ha, hb, hsrc, hcond', hwOk], ?_, ?_⟩
              · intro _
                simp [processItem, ha, hb, hsrc, hcond', hwOk, updFS]
                split_ifs <;> simp [updFS, bak_ne_base, hsrc]
              · intro src' hs
                rw [hsrc] at hs
                injection hs with hs; subst hs
                constructor
                · intro hch; simp at hch
                · intro hbOk hbn
                  simp [processItem, ha, hb, hsrc, hcond', hwOk, hbOk, hbn, updFS]
          | true =>
            simp [processItem, ha, hb, hsrc, hcond', hwOk] at hr
            rcases hr with hr | hr
            · exact Or.inl hr
            · right
              subst hr
              refine ⟨rfl, hb, by simp [processItem, ha, hb, hsrc, hcond', hwOk], ?_, ?_⟩
              · intro hch
                simp at hch
              · intro src' hs
                rw [hsrc] at hs
                injection hs with hs; subst hs
                constructor
                · intro _
                  simp [processItem, ha, hb, hsrc, hcond', hwOk, updFS, hcond'.2]
                · intro hbOk hbn
                  simp [processItem, ha, hb, hsrc, hcond', hwOk, hbOk, hbn, updFS,
                    bak_ne_base, (by decide : ¬ (st ".bak" : Str) = [])]

/-- One iteration is the identity or marks exactly its resolved path
as seen. -/
theorem processItem_disj
    (maps : List PathMap) (rules : List Rule) (chat : Str → Option Str)
    (bOk wOk : Bool) (root dyn : Str) (seen : List Str) (recs : List PatchRecord)
    (fs : FS) (it : FixItem) :
    processItem maps rules chat bOk wOk root dyn (seen, recs, fs) it = (seen, recs, fs) ∨
    ((processItem maps rules chat bOk wOk root dyn (seen, recs, fs) it).1 =
      seen ++ [absPathOf maps root it] ∧ absPathOf maps root it ∉ seen) := by
  by_cases ha : pyStrip it.file = []
  · left; simp [processItem, ha]
  · by_cases hb : absPathOf maps root it ∈ seen
    · left; simp [processItem, ha, hb]
    · right
      refine ⟨?_, hb⟩
      cases hsrc : fs (absPathOf maps root it) with
      | none => simp [processItem, ha, hb, hsrc]
      | some src =>
        simp [processItem, ha, hb, hsrc]
        split_ifs <;> simp

/-- Appending `.bak` always yields a backup-suffixed path. -/
theorem bakSuffixed_append (p : Str) : bakSuffixed (p ++ st ".bak") = true := by
  simp [bakSuffixed, List.isSuffixOf_iff_suffix]

/-- Loop invariant of `fix_selected`'s fold: seen files are never
rewritten, existing backups are preserved, and every produced record
describes its file's filesystem outcome. -/
theorem fold_spec
    (maps : List PathMap) (rules : List Rule) (chat : Str → Option Str)
    (bOk wOk : Bool) (root dyn : Str) :
    ∀ (items : List FixItem) (seen : List Str) (recs : List PatchRecord) (fs : FS),
    (∀ it ∈ items, bakSuffixed (absPathOf maps root it) = false) →
    (∀ p ∈ seen, bakSuffixed p = false) →
    (∀ p ∈ seen,
      (items.foldl (processItem maps rules chat bOk wOk root dyn) (seen, recs, fs)).2.2 p
        = fs p) ∧
    (∀ b c, bakSuffixed b = true → fs b = some c →
      (items.foldl (processItem maps rules chat bOk wOk root dyn) (seen, recs, fs)).2.2 b
        = some c) ∧
    (∀ r ∈ (items.foldl (processItem maps rules chat bOk wOk root dyn)
        (seen, recs, fs)).2.1,
      r ∈ recs ∨
      (r.file ∉ seen ∧ bakSuffixed r.file = false ∧
        (r.changed = false →
          (items.foldl (processItem maps rules chat bOk wOk root dyn)
            (seen, recs, fs)).2.2 r.file = fs r.file) ∧
        (∀ src, fs r.file = some src →
          (r.changed = true →
            (items.foldl (processItem maps rules chat bOk wOk root dyn)
              (seen, recs, fs)).2.2 r.file =
              some (if (pipelineOn rules chat dyn r.file src).1 ≠ src ∧ wOk = true
                    then (pipelineOn rules chat dyn r.file src).1 else src)) ∧
          (bOk = true → fs (r.file ++ st ".bak") = none →
            (items.foldl (processItem maps rules chat bOk wOk root dyn)
              (seen, recs, fs)).2.2 (r.file ++ st ".bak") = some src)))) := by
  intro items
  induction items with
  | nil =>
    intro seen recs fs _ _
    exact ⟨fun p _ => rfl, fun b c _ h => h, fun r hr => Or.inl hr⟩
  | cons it rest ih =>
    intro seen recs fs Hb Hseen
    have Hbit : bakSuffixed (absPathOf maps root it) = false :=
      Hb it (List.mem_cons_self it rest)
    have Hbrest : ∀ x ∈ rest, bakSuffixed (absPathOf maps root x) = false :=
      fun x hx => Hb x (List.mem_cons_of_mem it hx)
    simp only [List.foldl_cons]
    rcases processItem_disj maps rules chat bOk wOk root dyn seen recs fs it with
      hid | ⟨hseen1, habs⟩
    · rw [hid]
      exact ih seen recs fs Hbrest Hseen
    · have Hseen1 : ∀ p ∈ (processItem maps rules chat bOk wOk root dyn
          (seen, recs, fs) it).1, bakSuffixed p = false := by
        intro p hp
        rw [hseen1] at hp
        rcases List.mem_append.mp hp with h | h
        · exact Hseen p h
        · simp at h; subst h; exact Hbit
      have IH := ih (processItem maps rules chat bOk wOk root dyn (seen, recs, fs) it).1
        (processItem maps rules chat bOk wOk root dyn (seen, recs, fs) it).2.1
        (processItem maps rules chat bOk wOk root dyn (seen, recs, fs) it).2.2
        Hbrest Hseen1
      have hsub : ∀ p ∈ seen,
          p ∈ (processItem maps rules chat bOk wOk root dyn (seen, recs, fs) it).1 := by
        rw [hseen1]; intro p hp; exact List.mem_append_left _ hp
      have huntouched : ∀ q, q ≠ absPathOf maps root it →
          q ≠ absPathOf maps root it ++ st ".bak" →
          (processItem maps rules chat bOk wOk root dyn (seen, recs, fs) it).2.2 q = fs q :=
        fun q h1 h2 =>
          processItem_untouched maps rules chat bOk wOk root dyn seen recs fs it q h1 h2
      refine ⟨?_, ?_, ?_⟩
      · intro p hp
        rw [IH.1 p (hsub p hp)]
        apply huntouched
        · intro h; exact habs (h ▸ hp)
        · intro h
          have hb2 := Hseen p hp
          rw [h, bakSuffixed_append] at hb2
          exact Bool.noConfusion hb2
      · intro b c hbs hc
        exact IH.2.1 b c hbs
          (processItem_bak_keep maps rules chat bOk wOk root dyn seen recs fs it Hbit b c hbs hc)
      · intro r hr
        rcases IH.2.2 r hr with hrS | ⟨hnotin, hbak, hch, hsrcQ⟩
        · rcases processItem_records maps rules chat bOk wOk root dyn seen recs fs it r hrS with
            h2 | ⟨hfile, habs2, _, hch2, hsrcloc⟩
          · exact Or.inl h2
          · right
            have habsin : absPathOf maps root it ∈
                (processItem maps rules chat bOk wOk root dyn (seen, recs, fs) it).1 := by
              rw [hseen1]; simp
            have hfileIn : r.file ∈
                (processItem maps rules chat bOk wOk root dyn (seen, recs, fs) it).1 := by
              rw [hfile]; exact habsin
            refine ⟨hfile ▸ habs2, hfile ▸ Hbit, ?_, ?_⟩
            · intro hc0
              rw [IH.1 r.file hfileIn]
              exact hch2 hc0
            · intro src hsrc0
              have hloc := hsrcloc src hsrc0
              constructor
              · intro hct
                rw [IH.1 r.file hfileIn]
                exact hloc.1 hct
              · intro hbok hbn
                exact IH.2.1 _ src (bakSuffixed_append _) (hloc.2 hbok hbn)
        · right
          have hne_abs : r.file ≠ absPathOf maps root it := by
            intro h
            apply hnotin
            rw [hseen1, h]
            simp
          have hne_bak : r.file ≠ absPathOf maps root it ++ st ".bak" := by
            intro h
            rw [h, bakSuffixed_append] at hbak
            exact Bool.noConfusion hbak
          have hfs_eq :
              (processItem maps rules chat bOk wOk root dyn (seen, recs, fs) it).2.2 r.file =
                fs r.file := huntouched _ hne_abs hne_bak
          have hfs_bak_eq :
              (processItem maps rules chat bOk wOk root dyn (seen, recs, fs) it).2.2
                (r.file ++ st ".bak") = fs (r.file ++ st ".bak") := by
            apply huntouched
            · intro h
              rw [← h, bakSuffixed_append] at Hbit
              exact Bool.noConfusion Hbit
            · intro h
              exact hne_abs (List.append_cancel_right h)
          refine ⟨fun h => hnotin (hsub _ h), hbak, ?_, ?_⟩
          · intro h0
            rw [hch h0, hfs_eq]
          · intro src hs0
            have hQ := hsrcQ src (by rw [hfs_eq]; exact hs0)
            exact ⟨fun hct => hQ.1 hct,
              fun hbok hbn => hQ.2 hbok (by rw [hfs_bak_eq]; exact hbn)⟩

/-- Claim C7, amended: `changed == false` implies byte-identical
on-disk content; `changed == true` implies the file holds the
pipeline's output text when it differs from the pre-patch content and
the write succeeds, and the pre-patch content otherwise — so the
content may be identical under `changed == true` exactly when the
pipeline's output equals it (e.g. an identity rule substitution). -/
theorem C7_amended :
    ∀ (maps : List PathMap) (rules : List Rule) (chat : Str → Option Str)
      (bOk wOk : Bool) (root : Str) (items : List FixItem) (dmOpt : Option Str)
      (fs : FS),
    (∀ it ∈ items, bakSuffixed (absPathOf maps root it) = false) →
    ∀ r ∈ (fix_selected maps rules chat bOk wOk root items dmOpt fs).1,
      (r.changed = false →
        (fix_selected maps rules chat bOk wOk root items dmOpt fs).2 r.file = fs r.file) ∧
      (∀ src, fs r.file = some src → r.changed = true →
        (fix_selected maps rules chat bOk wOk root items dmOpt fs).2 r.file =
          some (if (pipelineOn rules chat (dynModeOf dmOpt) r.file src).1 ≠ src ∧
                    wOk = true
                then (pipelineOn rules chat (dynModeOf dmOpt) r.file src).1 else src)) := by
  intro maps rules chat bOk wOk root items dmOpt fs Hb r hr
  have F := fold_spec maps rules chat bOk wOk root (dynModeOf dmOpt) items [] [] fs Hb
    (by simp)
  rcases F.2.2 r hr with h | ⟨_, _, hch, hsrcQ⟩
  · exact absurd h (List.not_mem_nil r)
  · exact ⟨hch, fun src hs hct => (hsrcQ src hs).1 hct⟩

/-- Claim C3, amended: `fix_selected` never overwrites an existing
backup and creates `F.bak` from F's pre-run content before any write
(when the copy succeeds); `Fixer._apply_rule_to_file`, by contrast,
recreates the backup before every write, so there it reflects the
latest pre-write content rather than the first run's. -/
theorem C3_amended :
    (∀ (maps : List PathMap) (rules : List Rule) (chat : Str → Option Str)
      (bOk wOk : Bool) (root : Str) (items : List FixItem) (dmOpt : Option Str)
      (fs : FS),
      (∀ it ∈ items, bakSuffixed (absPathOf maps root it) = false) →
      (∀ b c, bakSuffixed b = true → fs b = some c →
        (fix_selected maps rules chat bOk wOk root items dmOpt fs).2 b = some c) ∧
      (∀ r ∈ (fix_selected maps rules chat bOk wOk root items dmOpt fs).1,
        ∀ src, fs r.file = some src → bOk = true →
        fs (r.file ++ st ".bak") = none →
        (fix_selected maps rules chat bOk wOk root items dmOpt fs).2
          (r.file ++ st ".bak") = some src)) ∧
    (∀ (lint : Str → Bool) (rule : Rule) (path : Str) (fs : FS) (src : Str),
      fs path = some src →
      (subnLit true rule.search rule.replace src).1 ≠ src →
      (apply_rule_to_file lint rule path fs).2 (path ++ st ".bak") = some src) := by
  constructor
  · intro maps rules chat bOk wOk root items dmOpt fs Hb
    have F := fold_spec maps rules chat bOk wOk root (dynModeOf dmOpt) items [] [] fs Hb
      (by simp)
    constructor
    · exact fun b c hbs hc => F.2.1 b c hbs hc
    · intro r hr src hs hbok hbn
      rcases F.2.2 r hr with h | ⟨_, _, _, hsrcQ⟩
      · exact absurd h (List.not_mem_nil r)
      · exact (hsrcQ src hs).2 hbok hbn
  · intro lint rule path fs src hread hne
    simp [apply_rule_to_file, hread, hne, updFS, bak_ne_base path]
    split_ifs <;> simp [updFS, bak_ne_base path]

/-- Claim C3, witness: a pre-existing backup survives a run that
changes the file, and a fresh backup holds the pre-run content. -/
theorem C3_witness :
    (∀ it ∈ [(⟨st "/a.php", []⟩ : FixItem)],
      bakSuffixed (absPathOf (load_path_maps []) (st "/") it) = false) ∧
    bakSuffixed (st "/a.php.bak") = true ∧
    fsA (st "/a.php") = some (st "abc") ∧
    fsA (st "/a.php.bak") = none ∧
    (fix_selected (load_path_maps []) [ruleAB] (fun _ => none) true true (st "/")
      [⟨st "/a.php", []⟩] none fsA).2 (st "/a.php.bak") = some (st "abc") ∧
    fsF (st "/f.php") = some (st "a") ∧
    (subnLit true ruleGrow.search ruleGrow.replace (st "a")).1 ≠ st "a" ∧
    (apply_rule_to_file (fun _ => true) ruleGrow (st "/f.php") fsF).2
      (st "/f.php" ++ st ".bak") = some (st "a") :=
  ⟨by decide, by decide, by decide, by decide,
    ((C3_amended.1 (load_path_maps []) [ruleAB] (fun _ => none) true true (st "/")
        [⟨st "/a.php", []⟩] none fsA (by decide)).2
      ⟨st "/a.php", true, st "rules", st "r1 x1", some (st "/a.php.bak")⟩ (by decide)
      (st "abc") (by decide) rfl (by decide)),
    by decide, by decide,
    C3_amended.2 (fun _ => true) ruleGrow (st "/f.php") fsF (st "a") (by decide) (by decide)⟩

/-- Claim C7, witness: the identity-rule run instantiated — the record
reports `changed = true` while the pipeline's output equals the
pre-patch content, so the file is untouched. -/
theorem C7_witness :
    (∀ it ∈ [(⟨st "/a.php", []⟩ : FixItem)],
      bakSuffixed (absPathOf (load_path_maps []) (st "/") it) = false) ∧
    (⟨st "/a.php", true, st "rules", st "r x1", some (st "/a.php.bak")⟩ : PatchRecord) ∈
      (fix_selected (load_path_maps []) [ruleIdent] (fun _ => none) true true (st "/")
        [⟨st "/a.php", []⟩] none fsA).1 ∧
    fsA (st "/a.php") = some (st "abc") ∧
    (fix_selected (load_path_maps []) [ruleIdent] (fun _ => none) true true (st "/")
      [⟨st "/a.php", []⟩] none fsA).2 (st "/a.php") =
      some (if (pipelineOn [ruleIdent] (fun _ => none) (dynModeOf none)
                  (st "/a.php") (st "abc")).1 ≠ st "abc" ∧ (true : Bool) = true
            then (pipelineOn [ruleIdent] (fun _ => none) (dynModeOf none)
                  (st "/a.php") (st "abc")).1
            else st "abc") :=
  ⟨by decide, by decide, by decide,
    (C7_amended (load_path_maps []) [ruleIdent] (fun _ => none) true true (st "/")
      [⟨st "/a.php", []⟩] none fsA (by decide)
      ⟨st "/a.php", true, st "rules", st "r x1", some (st "/a.php.bak")⟩ (by decide)).2
      (st "abc") (by decide) rfl⟩

theorem lexInsert_perm (x : Str) (l : List Str) : (lexInsert x l).Perm (x :: l) := by
  induction l with
  | nil => simp [lexInsert]
  | cons y ys ih =>
    simp only [lexInsert]
    split
    · exact List.Perm.refl _
    · exact ((ih.cons y).trans (List.Perm.swap x y ys))

theorem lexSort_perm (l : List Str) : (lexSort l).Perm l := by
  induction l with
  | nil => simp [lexSort]
  | cons x xs ih => exact (lexInsert_perm x (lexSort xs)).trans (ih.cons x)

theorem mem_lexSort {y : Str} {l : List Str} : y ∈ lexSort l ↔ y ∈ l :=
  (lexSort_perm l).mem_iff

theorem mem_dedupStr {y : Str} {l : List Str} : y ∈ dedupStr l ↔ y ∈ l := by
  induction l with
  | nil => simp [dedupStr]
  | cons x xs ih =>
    simp only [dedupStr, List.mem_cons, List.mem_filter]
    constructor
    · rintro (h | ⟨h, _⟩)
      · exact Or.inl h
      · exact Or.inr (ih.mp h)
    · rintro (h | h)
      · exact Or.inl h
      · by_cases hx : y = x
        · exact Or.inl hx
        · exact Or.inr ⟨ih.mpr h, by simpa using hx⟩

theorem dedupStr_nodup (l : List Str) : (dedupStr l).Nodup := by
  induction l with
  | nil => simp [dedupStr]
  | cons x xs ih =>
    simp only [dedupStr, List.nodup_cons]
    constructor
    · intro h
      exact (by simpa using (List.mem_filter.mp h).2 : ¬ x = x) rfl
    · exact ih.filter _

theorem dedupStr_eq_self {l : List Str} (h : l.Nodup) : dedupStr l = l := by
  induction l with
  | nil => rfl
  | cons x xs ih =>
    simp only [dedupStr]
    rw [ih (List.Nodup.of_cons h)]
    have : ∀ y ∈ xs, (decide ¬ (y = x)) = true := by
      intro y hy
      simp only [decide_eq_true_eq]
      exact fun he => (List.nodup_cons.mp h).1 (he ▸ hy)
    rw [List.filter_eq_self.mpr this]

theorem lexLe_total (a b : Str) : lexLe a b = true ∨ lexLe b a = true := by
  induction a generalizing b with
  | nil => left; simp [lexLe]
  | cons x xs ih =>
    cases b with
    | nil => right; simp [lexLe]
    | cons y ys =>
      by_cases h1 : x.toNat < y.toNat
      · left; simp [lexLe, h1]
      · by_cases h2 : y.toNat < x.toNat
        · right; simp [lexLe, h2]
        · rcases ih ys with h | h
          · left; simp [lexLe, h1, h2, h]
          · right; simp [lexLe, h1, h2, h]

theorem lexLe_trans : ∀ a b c : Str, lexLe a b = true → lexLe b c = true →
    lexLe a c = true := by
  intro a
  induction a with
  | nil => intro b c _ _; simp [lexLe]
  | cons x xs ih =>
    intro b c hab hbc
    cases b with
    | nil => simp [lexLe] at hab
    | cons y ys =>
      cases c with
      | nil => simp [lexLe] at hbc
      | cons z zs =>
        simp only [lexLe] at hab hbc ⊢
        by_cases h1 : x.toNat < y.toNat <;> by_cases h2 : y.toNat < x.toNat <;>
          by_cases h3 : y.toNat < z.toNat <;> by_cases h4 : z.toNat < y.toNat <;>
          by_cases h5 : x.toNat < z.toNat <;> by_cases h6 : z.toNat < x.toNat <;>
          simp [h1, h2, h3, h4, h5, h6] at hab hbc ⊢ <;>
          first
          | omega
          | exact ih ys zs hab hbc

theorem lexInsert_sorted {x : Str} {l : List Str}
    (h : l.Pairwise (fun a b => lexLe a b = true)) :
    (lexInsert x l).Pairwise (fun a b => lexLe a b = true) := by
  induction l with
  | nil => simp [lexInsert]
  | cons y ys ih =>
    simp only [lexInsert]
    split
    · rename_i hxy
      refine List.Pairwise.cons ?_ h
      intro b hb
      rcases List.mem_cons.mp hb with hb | hb
      · exact hb ▸ hxy
      · exact lexLe_trans x y b hxy ((List.pairwise_cons.mp h).1 b hb)
    · rename_i hxy
      have hyx : lexLe y x = true := by
        rcases lexLe_total x y with h2 | h2
        · exact absurd h2 hxy
        · exact h2
      refine List.Pairwise.cons ?_ (ih (List.pairwise_cons.mp h).2)
      intro b hb
      have hb2 := (lexInsert_perm x ys).mem_iff.mp hb
      rcases List.mem_cons.mp hb2 with hb2 | hb2
      · exact hb2 ▸ hyx
      · exact (List.pairwise_cons.mp h).1 b hb2

theorem lexSort_sorted (l : List Str) :
    (lexSort l).Pairwise (fun a b => lexLe a b = true) := by
  induction l with
  | nil => simp [lexSort]
  | cons x xs ih => exact lexInsert_sorted ih

theorem lexSort_eq_self {l : List Str}
    (h : l.Pairwise (fun a b => lexLe a b = true)) : lexSort l = l := by
  induction l with
  | nil => rfl
  | cons x xs ih =>
    simp only [lexSort]
    rw [ih (List.pairwise_cons.mp h).2]
    cases xs with
    | nil => rfl
    | cons y ys =>
      have hxy : lexLe x y = true :=
        (List.pairwise_cons.mp h).1 y (List.mem_cons_self y ys)
      simp [lexInsert, hxy]

theorem sortedSet_of_sorted_nodup {l : List Str} :
    sortedSet (lexSort (dedupStr l)) = lexSort (dedupStr l) := by
  have hnd : (lexSort (dedupStr l)).Nodup :=
    ((lexSort_perm (dedupStr l)).nodup_iff).mpr (dedupStr_nodup l)
  simp only [sortedSet]
  rw [dedupStr_eq_self hnd, lexSort_eq_self (lexSort_sorted (dedupStr l))]

theorem litPre_append (p r : Str) : litPre false p (p ++ r) = true := by
  induction p with
  | nil => simp [litPre]
  | cons c cs ih => simp [litPre, ih]

theorem wsSplit_spec (w : Str) (hw : ∀ c ∈ w, isWS c = true) :
    ∀ r : Str, (r = [] ∨ (∃ b rs, r = b :: rs ∧ isWS b = false)) →
    wsSplit (w ++ r) = (w, r) := by
  induction w with
  | nil =>
    intro r hr
    rcases hr with hr | ⟨b, rs, hb, hws⟩
    · subst hr; rfl
    · subst hb; simp [wsSplit, hws]
  | cons c cs ih =>
    intro r hr
    have hc : isWS c = true := hw c (List.mem_cons_self c cs)
    simp [wsSplit, hc, ih (fun x hx => hw x (List.mem_cons_of_mem c hx)) r hr]

theorem takeWhile_append_stop (p : Char → Bool) (a : Str) (ha : ∀ c ∈ a, p c = true)
    (b : Char) (hb : p b = false) (r : Str) :
    (a ++ b :: r).takeWhile p = a ∧ (a ++ b :: r).dropWhile p = b :: r := by
  induction a with
  | nil => simp [List.takeWhile, List.dropWhile, hb]
  | cons c cs ih =>
    have hc : p c = true := ha c (List.mem_cons_self c cs)
    have := ih (fun x hx => ha x (List.mem_cons_of_mem c hx))
    simp [List.takeWhile, List.dropWhile, hc, this.1, this.2]

theorem litPre_get (p : Str) : ∀ (s : Str), litPre false p s = true →
    ∀ k, k < p.length → s[k]? = p[k]? := by
  induction p with
  | nil => intro s _ k hk; simp at hk
  | cons c cs ih =>
    intro s h k hk
    cases s with
    | nil => simp [litPre] at h
    | cons d ds =>
      simp [litPre] at h
      cases k with
      | zero => simp [h.1]
      | succ k =>
        simp only [List.getElem?_cons_succ]
        exact ih ds h.2 k (by simpa using hk)

theorem not_this_arrow (nm : Str) (hnm : ∀ c ∈ nm, isIdentChar c = true) (r : Str) :
    litPre false (st "this->") (nm ++ ';' :: r) = false := by
  by_contra h
  have h' : litPre false (st "this->") (nm ++ ';' :: r) = true := by
    simpa using h
  by_cases hlen : nm.length ≤ 4
  · have hk := litPre_get (st "this->") (nm ++ ';' :: r) h' nm.length
      (by simp [st]; omega)
    have hsemi : (nm ++ ';' :: r)[nm.length]? = some ';' := by
      rw [List.getElem?_append_right (Nat.le_refl _)]
      simp
    rw [hsemi] at hk
    interval_cases hnml : nm.length <;> simp [st] at hk
  · have hk := litPre_get (st "this->") (nm ++ ';' :: r) h' 4 (by simp [st])
    have h4 : (nm ++ ';' :: r)[4]? = nm[4]? := by
      rw [List.getElem?_append]
      rw [if_pos (by omega)]
    rw [h4] at hk
    have hmem : '-' ∈ nm := by
      have h5 : nm[4]? = some '-' := by rw [hk]; simp [st]
      exact List.getElem?_mem h5
    have := hnm '-' hmem
    simp [isIdentChar, isAlpha, isDigit] at this

theorem thisPropGo_no_dollar (a : Str) (ha : ∀ c ∈ a, ¬ c = '$') :
    ∀ b, thisPropGo 0 (a ++ b) = thisPropGo 0 b := by
  induction a with
  | nil => intro b; rfl
  | cons c cs ih =>
    intro b
    have hc : ¬ c = '$' := ha c (List.mem_cons_self c cs)
    have hlit : litPre false (st "$this->") (c :: (cs ++ b)) = false := by
      have : st "$this->" = '$' :: st "this->" := rfl
      rw [this]
      simp [litPre]
      intro h
      exact absurd h.symm hc
    have hstep : thisPropGo 0 (c :: (cs ++ b)) = thisPropGo 0 (cs ++ b) := by
      simp [thisPropGo, hlit]
    rw [List.cons_append, hstep]
    exact ih (fun x hx => ha x (List.mem_cons_of_mem c hx)) b

theorem matchPropDecl_line (kw ind nm e rest : Str)
    (hkw : kw = st "var" ∨ kw = st "public" ∨ kw = st "protected" ∨ kw = st "private")
    (hind : ∀ c ∈ ind, c = ' ' ∨ c = '\t')
    (hnm0 : nm ≠ [])
    (hnmh : ∀ c0, nm.head? = some c0 → isIdentStart c0 = true)
    (hnmc : ∀ c ∈ nm, isIdentChar c = true) :
    matchPropDecl (ind ++ kw ++ (' ' :: '$' :: nm) ++ (';' :: e) ++ rest) =
      some (ind.length + kw.length + nm.length + 3, nm) := by
  have hind' : ∀ c ∈ ind, isWS c = true := by
    intro c hc; rcases hind c hc with h | h <;> subst h <;> decide
  have htw := takeWhile_append_stop isIdentChar nm hnmc ';' (by decide) (e ++ rest)
  rcases List.exists_cons_of_ne_nil hnm0 with ⟨c0, nm_, hnmcons⟩
  have hc0 : isIdentStart c0 = true := hnmh c0 (by rw [hnmcons]; rfl)
  have hdrop : (nm ++ (';' :: (e ++ rest))).drop nm.length = ';' :: (e ++ rest) :=
    List.drop_left nm _
  have hh : nm.head? = some c0 := by rw [hnmcons]; rfl
  have hts : isTypeStart '$' = false := by decide
  have hws1 : wsSplit (' ' :: '$' :: (nm ++ (';' :: (e ++ rest)))) =
      ([' '], '$' :: (nm ++ (';' :: (e ++ rest)))) :=
    wsSplit_spec [' '] (by intro c hc; simp at hc; subst hc; decide) _
      (Or.inr ⟨'$', _, rfl, by decide⟩)
  have hstat : litPre false (st "static") ('$' :: (nm ++ (';' :: (e ++ rest)))) = false := by
    rw [show st "static" = 's' :: st "tatic" from rfl]
    simp [litPre]
  rcases hkw with hkw | hkw | hkw | hkw <;> subst hkw
  · have hshape : ind ++ st "var" ++ (' ' :: '$' :: nm) ++ (';' :: e) ++ rest =
        ind ++ ('v' :: 'a' :: 'r' :: ' ' :: '$' :: (nm ++ (';' :: (e ++ rest)))) := by
      rw [show st "var" = 'v' :: 'a' :: 'r' :: [] from rfl]; simp [List.append_assoc]
    rw [hshape]
    have hws0 : wsSplit (ind ++ ('v' :: 'a' :: 'r' :: ' ' :: '$' :: (nm ++ (';' :: (e ++ rest))))) = (ind, 'v' :: 'a' :: 'r' :: ' ' :: '$' :: (nm ++ (';' :: (e ++ rest)))) :=
      wsSplit_spec ind hind' _ (Or.inr ⟨_, _, rfl, by decide⟩)
    have hpub : litPre false (st "public") ('v' :: 'a' :: 'r' :: ' ' :: '$' :: (nm ++ (';' :: (e ++ rest)))) = false := by
      rw [show st "public" = 'p' :: 'u' :: 'b' :: 'l' :: 'i' :: 'c' :: [] from rfl]
      simp [litPre]
    have hpro : litPre false (st "protected") ('v' :: 'a' :: 'r' :: ' ' :: '$' :: (nm ++ (';' :: (e ++ rest)))) = false := by
      rw [show st "protected" = 'p' :: 'r' :: 'o' :: 't' :: 'e' :: 'c' :: 't' :: 'e' :: 'd' :: [] from rfl]
      simp [litPre]
    have hpri : litPre false (st "private") ('v' :: 'a' :: 'r' :: ' ' :: '$' :: (nm ++ (';' :: (e ++ rest)))) = false := by
      rw [show st "private" = 'p' :: 'r' :: 'i' :: 'v' :: 'a' :: 't' :: 'e' :: [] from rfl]
      simp [litPre]
    have hvar : litPre false (st "var") ('v' :: 'a' :: 'r' :: ' ' :: '$' :: (nm ++ (';' :: (e ++ rest)))) = true := by
      rw [show st "var" = 'v' :: 'a' :: 'r' :: [] from rfl]
      simp [litPre]
    unfold matchPropDecl
    rw [hws0]
    dsimp only
    simp only [hpub, hpro, hpri, hvar, Bool.false_eq_true, if_false, if_true]
    simp only [List.drop_succ_cons, List.drop_zero]
    rw [hws1]
    simp only [hstat, Bool.false_eq_true, false_and, if_false]
    simp [hts, htw.1, hdrop, hh, hc0, List.takeWhile, Option.some.injEq, Prod.mk.injEq]
    rw [show (st "var").length = 3 from rfl]
    omega
  · have hshape : ind ++ st "public" ++ (' ' :: '$' :: nm) ++ (';' :: e) ++ rest =
        ind ++ ('p' :: 'u' :: 'b' :: 'l' :: 'i' :: 'c' :: ' ' :: '$' :: (nm ++ (';' :: (e ++ rest)))) := by
      rw [show st "public" = 'p' :: 'u' :: 'b' :: 'l' :: 'i' :: 'c' :: [] from rfl]; simp [List.append_assoc]
    rw [hshape]
    have hws0 : wsSplit (ind ++ ('p' :: 'u' :: 'b' :: 'l' :: 'i' :: 'c' :: ' ' :: '$' :: (nm ++ (';' :: (e ++ rest))))) = (ind, 'p' :: 'u' :: 'b' :: 'l' :: 'i' :: 'c' :: ' ' :: '$' :: (nm ++ (';' :: (e ++ rest)))) :=
      wsSplit_spec ind hind' _ (Or.inr ⟨_, _, rfl, by decide⟩)
    have hpub : litPre false (st "public") ('p' :: 'u' :: 'b' :: 'l' :: 'i' :: 'c' :: ' ' :: '$' :: (nm ++ (';' :: (e ++ rest)))) = true := by
      rw [show st "public" = 'p' :: 'u' :: 'b' :: 'l' :: 'i' :: 'c' :: [] from rfl]
      simp [litPre]
    unfold matchPropDecl
    rw [hws0]
    dsimp only
    simp only [hpub, Bool.false_eq_true, if_false, if_true]
    simp only [List.drop_succ_cons, List.drop_zero]
    rw [hws1]
    simp only [hstat, Bool.false_eq_true, false_and, if_false]
    simp [hts, htw.1, hdrop, hh, hc0, List.takeWhile, Option.some.injEq, Prod.mk.injEq]
    rw [show (st "public").length = 6 from rfl]
    omega
  · have hshape : ind ++ st "protected" ++ (' ' :: '$' :: nm) ++ (';' :: e) ++ rest =
        ind ++ ('p' :: 'r' :: 'o' :: 't' :: 'e' :: 'c' :: 't' :: 'e' :: 'd' :: ' ' :: '$' :: (nm ++ (';' :: (e ++ rest)))) := by
      rw [show st "protected" = 'p' :: 'r' :: 'o' :: 't' :: 'e' :: 'c' :: 't' :: 'e' :: 'd' :: [] from rfl]; simp [List.append_assoc]
    rw [hshape]
    have hws0 : wsSplit (ind ++ ('p' :: 'r' :: 'o' :: 't' :: 'e' :: 'c' :: 't' :: 'e' :: 'd' :: ' ' :: '$' :: (nm ++ (';' :: (e ++ rest))))) = (ind, 'p' :: 'r' :: 'o' :: 't' :: 'e' :: 'c' :: 't' :: 'e' :: 'd' :: ' ' :: '$' :: (nm ++ (';' :: (e ++ rest)))) :=
      wsSplit_spec ind hind' _ (Or.inr ⟨_, _, rfl, by decide⟩)
    have hpub : litPre false (st "public") ('p' :: 'r' :: 'o' :: 't' :: 'e' :: 'c' :: 't' :: 'e' :: 'd' :: ' ' :: '$' :: (nm ++ (';' :: (e ++ rest)))) = false := by
      rw [show st "public" = 'p' :: 'u' :: 'b' :: 'l' :: 'i' :: 'c' :: [] from rfl]
      simp [litPre]
    have hpro : litPre false (st "protected") ('p' :: 'r' :: 'o' :: 't' :: 'e' :: 'c' :: 't' :: 'e' :: 'd' :: ' ' :: '$' :: (nm ++ (';' :: (e ++ rest)))) = true := by
      rw [show st "protected" = 'p' :: 'r' :: 'o' :: 't' :: 'e' :: 'c' :: 't' :: 'e' :: 'd' :: [] from rfl]
      simp [litPre]
    unfold matchPropDecl
    rw [hws0]
    dsimp only
    simp only [hpub, hpro, Bool.false_eq_true, if_false, if_true]
    simp only [List.drop_succ_cons, List.drop_zero]
    rw [hws1]
    simp only [hstat, Bool.false_eq_true, false_and, if_false]
    simp [hts, htw.1, hdrop, hh, hc0, List.takeWhile, Option.some.injEq, Prod.mk.injEq]
    rw [show (st "protected").length = 9 from rfl]
    omega
  · have hshape : ind ++ st "private" ++ (' ' :: '$' :: nm) ++ (';' :: e) ++ rest =
        ind ++ ('p' :: 'r' :: 'i' :: 'v' :: 'a' :: 't' :: 'e' :: ' ' :: '$' :: (nm ++ (';' :: (e ++ rest)))) := by
      rw [show st "private" = 'p' :: 'r' :: 'i' :: 'v' :: 'a' :: 't' :: 'e' :: [] from rfl]; simp [List.append_assoc]
    rw [hshape]
    have hws0 : wsSplit (ind ++ ('p' :: 'r' :: 'i' :: 'v' :: 'a' :: 't' :: 'e' :: ' ' :: '$' :: (nm ++ (';' :: (e ++ rest))))) = (ind, 'p' :: 'r' :: 'i' :: 'v' :: 'a' :: 't' :: 'e' :: ' ' :: '$' :: (nm ++ (';' :: (e ++ rest)))) :=
      wsSplit_spec ind hind' _ (Or.inr ⟨_, _, rfl, by decide⟩)
    have hpub : litPre false (st "public") ('p' :: 'r' :: 'i' :: 'v' :: 'a' :: 't' :: 'e' :: ' ' :: '$' :: (nm ++ (';' :: (e ++ rest)))) = false := by
      rw [show st "public" = 'p' :: 'u' :: 'b' :: 'l' :: 'i' :: 'c' :: [] from rfl]
      simp [litPre]
    have hpro : litPre false (st "protected") ('p' :: 'r' :: 'i' :: 'v' :: 'a' :: 't' :: 'e' :: ' ' :: '$' :: (nm ++ (';' :: (e ++ rest)))) = false := by
      rw [show st "protected" = 'p' :: 'r' :: 'o' :: 't' :: 'e' :: 'c' :: 't' :: 'e' :: 'd' :: [] from rfl]
      simp [litPre]
    have hpri : litPre false (st "private") ('p' :: 'r' :: 'i' :: 'v' :: 'a' :: 't' :: 'e' :: ' ' :: '$' :: (nm ++ (';' :: (e ++ rest)))) = true := by
      rw [show st "private" = 'p' :: 'r' :: 'i' :: 'v' :: 'a' :: 't' :: 'e' :: [] from rfl]
      simp [litPre]
    unfold matchPropDecl
    rw [hws0]
    dsimp only
    simp only [hpub, hpro, hpri, Bool.false_eq_true, if_false, if_true]
    simp only [List.drop_succ_cons, List.drop_zero]
    rw [hws1]
    simp only [hstat, Bool.false_eq_true, false_and, if_false]
    simp [hts, htw.1, hdrop, hh, hc0, List.takeWhile, Option.some.injEq, Prod.mk.injEq]
    rw [show (st "private").length = 7 from rfl]
    omega

theorem propDeclGo_names_shift (s : Str) : ∀ (i j skip : Nat) (flag : Bool),
    (propDeclGo i skip flag s).map (fun m => m.2.2) =
      (propDeclGo j skip flag s).map (fun m => m.2.2) := by
  induction s with
  | nil => intro i j skip flag; rfl
  | cons c cs ih =>
    intro i j skip flag
    by_cases hskip : 0 < skip
    · simp only [propDeclGo, if_pos hskip]
      exact ih _ _ _ _
    · cases flag with
      | false =>
        simp only [propDeclGo, if_neg hskip, Bool.false_eq_true, if_false]
        exact ih _ _ _ _
      | true =>
        simp only [propDeclGo, if_neg hskip, if_true]
        cases hm : matchPropDecl (c :: cs) with
        | none => exact ih _ _ _ _
        | some m =>
          simp only [List.map_cons, List.cons.injEq]
          exact ⟨trivial, ih _ _ _ _⟩

theorem propDeclGo_walk (a : Str) : ∀ (i : Nat) (flag : Bool) (b : Str),
    propDeclGo i a.length flag (a ++ b) =
      propDeclGo (i + a.length) 0
        (match a.getLast? with
         | some c => decide (c = '\n')
         | none => flag) b := by
  induction a with
  | nil => intro i flag b; simp [List.getLast?]
  | cons c cs ih =>
    intro i flag b
    have hstep : propDeclGo i (cs.length + 1) flag ((c :: cs) ++ b) =
        propDeclGo (i + 1) cs.length (decide (c = '\n')) (cs ++ b) := by
      simp [propDeclGo]
    rw [show ((c :: cs) : Str).length = cs.length + 1 from rfl, hstep,
      ih (i + 1) (decide (c = '\n')) b]
    have harith : i + 1 + cs.length = i + (cs.length + 1) := by omega
    rw [harith]
    cases cs with
    | nil => rfl
    | cons d ds =>
      rw [List.getLast?_cons_cons]
      cases h : (d :: ds).getLast? with
      | some x => rfl
      | none => simp at h

theorem propDeclGo_line (kw ind nm e z : Str) (i : Nat)
    (hkw : kw = st "var" ∨ kw = st "public" ∨ kw = st "protected" ∨ kw = st "private")
    (hind : ∀ c ∈ ind, c = ' ' ∨ c = '\t')
    (hnm0 : nm ≠ [])
    (hnmh : ∀ c0, nm.head? = some c0 → isIdentStart c0 = true)
    (hnmc : ∀ c ∈ nm, isIdentChar c = true)
    (he : e = st "\n" ∨ e = st "\r\n") :
    propDeclGo i 0 true ((ind ++ kw ++ (' ' :: '$' :: nm) ++ (';' :: e)) ++ z) =
      (i, i + (ind.length + kw.length + nm.length + 3), nm) ::
        propDeclGo (i + (ind ++ kw ++ (' ' :: '$' :: nm) ++ (';' :: e)).length)
          0 true z := by
  have hm := matchPropDecl_line kw ind nm e z hkw hind hnm0 hnmh hnmc
  have hBshape : (ind ++ kw ++ (' ' :: '$' :: nm) ++ (';' :: e)) ++ z =
      ((ind ++ kw ++ (' ' :: '$' :: nm)) ++ [';']) ++ (e ++ z) := by
    simp [List.append_assoc]
  have hBlen : ((ind ++ kw ++ (' ' :: '$' :: nm)) ++ ([';'] : Str)).length =
      ind.length + kw.length + nm.length + 3 := by
    simp [List.length_append]; omega
  have hBne : ((ind ++ kw ++ (' ' :: '$' :: nm)) ++ ([';'] : Str)) ≠ [] := by
    intro h
    have := congrArg List.length h
    rw [hBlen] at this
    simp at this
  rcases List.exists_cons_of_ne_nil hBne with ⟨c, cs, hB⟩
  have hm' : matchPropDecl (c :: (cs ++ (e ++ z))) =
      some (ind.length + kw.length + nm.length + 3, nm) := by
    have : c :: (cs ++ (e ++ z)) =
        ind ++ kw ++ (' ' :: '$' :: nm) ++ (';' :: e) ++ z := by
      rw [show (c :: (cs ++ (e ++ z)) : Str) = (c :: cs) ++ (e ++ z) from rfl, ← hB]
      rw [← hBshape]
    rw [this]; exact hm
  have hcs : cs.length = ind.length + kw.length + nm.length + 2 := by
    have := congrArg List.length hB
    rw [hBlen] at this
    simp at this
    omega
  rw [hBshape, hB, List.cons_append]
  have hstep : propDeclGo i 0 true (c :: (cs ++ (e ++ z))) =
      (i, i + (ind.length + kw.length + nm.length + 3), nm) ::
        propDeclGo (i + 1) (ind.length + kw.length + nm.length + 2)
          (decide (c = '\n')) (cs ++ (e ++ z)) := by
    simp [propDeclGo, hm']
  rw [hstep, show ind.length + kw.length + nm.length + 2 = cs.length from hcs.symm]
  rw [propDeclGo_walk cs (i + 1) (decide (c = '\n')) (e ++ z)]
  have hlast : ((c :: cs) : Str).getLast? = some ';' := by
    rw [← hB]
    exact List.getLast?_concat _
  have hflag : (match cs.getLast? with
      | some c' => decide (c' = '\n')
      | none => decide (c = '\n')) = false := by
    cases cs with
    | nil =>
      simp [List.getLast?] at hlast
      subst hlast
      rfl
    | cons d ds =>
      rw [List.getLast?_cons_cons] at hlast
      rw [hlast]
      rfl
  rw [hflag]
  have harith : i + 1 + cs.length = i + (ind.length + kw.length + nm.length + 3) := by
    omega
  rw [harith]
  have hlinelen : (ind ++ kw ++ (' ' :: '$' :: nm) ++ (';' :: e)).length =
      ind.length + kw.length + nm.length + 3 + e.length := by
    simp [List.length_append]; omega
  rw [hlinelen]
  rcases he with he | he <;> subst he
  · have h1 : propDeclGo (i + (ind.length + kw.length + nm.length + 3)) 0 false
        (st "\n" ++ z) =
        propDeclGo (i + (ind.length + kw.length + nm.length + 3) + 1) 0 true z := by
      rw [show (st "\n" ++ z : Str) = '\n' :: z from rfl]
      simp [propDeclGo]
    rw [h1]
    rw [show (st "\n" : Str).length = 1 from rfl]
    have : i + (ind.length + kw.length + nm.length + 3 + 1) =
        i + (ind.length + kw.length + nm.length + 3) + 1 := by omega
    rw [this]
  · have h1 : propDeclGo (i + (ind.length + kw.length + nm.length + 3)) 0 false
        (st "\r\n" ++ z) =
        propDeclGo (i + (ind.length + kw.length + nm.length + 3) + 2) 0 true z := by
      rw [show (st "\r\n" ++ z : Str) = '\x0d' :: '\n' :: z from rfl]
      simp [propDeclGo]
    rw [h1]
    rw [show (st "\r\n" : Str).length = 2 from rfl]
    have : i + (ind.length + kw.length + nm.length + 3 + 2) =
        i + (ind.length + kw.length + nm.length + 3) + 2 := by omega
    rw [this]

theorem propDeclGo_text (kw ind e : Str)
    (hkw : kw = st "var" ∨ kw = st "public" ∨ kw = st "protected" ∨ kw = st "private")
    (hind : ∀ c ∈ ind, c = ' ' ∨ c = '\t')
    (he : e = st "\n" ∨ e = st "\r\n") :
    ∀ (names : List Str) (z : Str) (i : Nat),
    (∀ nm ∈ names, nm ≠ [] ∧ (∀ c0, nm.head? = some c0 → isIdentStart c0 = true) ∧
      (∀ c ∈ nm, isIdentChar c = true)) →
    (propDeclGo i 0 true
        (((names.map (fun n => ind ++ kw ++ (' ' :: '$' :: n) ++ (';' :: e))).flatten)
          ++ z)).map (fun m => m.2.2) =
      names ++ (propDeclGo 0 0 true z).map (fun m => m.2.2) := by
  intro names
  induction names with
  | nil =>
    intro z i hv
    simp only [List.map_nil, List.flatten_nil, List.nil_append]
    rw [propDeclGo_names_shift z i 0 0 true]
  | cons n ns ih =>
    intro z i hv
    have hn := hv n (List.mem_cons_self n ns)
    have hshape :
        ((((n :: ns).map (fun n => ind ++ kw ++ (' ' :: '$' :: n) ++ (';' :: e))).flatten)
          ++ z) =
        (ind ++ kw ++ (' ' :: '$' :: n) ++ (';' :: e)) ++
          ((((ns.map (fun n => ind ++ kw ++ (' ' :: '$' :: n) ++ (';' :: e))).flatten)) ++ z) := by
      simp [List.append_assoc]
    rw [hshape]
    rw [propDeclGo_line kw ind n e _ i hkw hind hn.1 hn.2.1 hn.2.2 he]
    simp only [List.map_cons, List.cons_append, List.cons.injEq]
    rw [ih _ _ (fun nm hnm => hv nm (List.mem_cons_of_mem n hnm))]
    simp

theorem thisPropGo_step_dollar (nm r : Str) (hnmc : ∀ c ∈ nm, isIdentChar c = true) :
    thisPropGo 0 ('$' :: (nm ++ (';' :: r))) = thisPropGo 0 (nm ++ (';' :: r)) := by
  have hlit : litPre false (st "$this->") ('$' :: (nm ++ (';' :: r))) = false := by
    rw [show st "$this->" = '$' :: st "this->" from rfl]
    simp [litPre, not_this_arrow nm hnmc r]
  simp [thisPropGo, hlit]

theorem thisPropGo_line (kw ind nm e : Str)
    (hkw : kw = st "var" ∨ kw = st "public" ∨ kw = st "protected" ∨ kw = st "private")
    (hind : ∀ c ∈ ind, c = ' ' ∨ c = '\t')
    (hnmc : ∀ c ∈ nm, isIdentChar c = true)
    (he : e = st "\n" ∨ e = st "\r\n") :
    ∀ z, thisPropGo 0 ((ind ++ kw ++ (' ' :: '$' :: nm) ++ (';' :: e)) ++ z) =
      thisPropGo 0 z := by
  intro z
  have hshape : (ind ++ kw ++ (' ' :: '$' :: nm) ++ (';' :: e)) ++ z =
      (ind ++ (kw ++ [' '])) ++ ('$' :: (nm ++ ((';' :: e) ++ z))) := by
    simp [List.append_assoc]
  rw [hshape]
  have hd1 : ∀ c ∈ ind ++ (kw ++ [' ']), ¬ c = '$' := by
    intro c hc
    rcases List.mem_append.mp hc with h | h
    · rcases hind c h with h' | h' <;> subst h' <;> decide
    · rcases List.mem_append.mp h with h | h
      · intro hq
        subst hq
        rcases hkw with hk | hk | hk | hk <;> subst hk <;> exact absurd h (by decide)
      · simp at h; subst h; decide
  rw [thisPropGo_no_dollar _ hd1]
  rw [show ((';' :: e) ++ z : Str) = ';' :: (e ++ z) from rfl]
  rw [thisPropGo_step_dollar nm (e ++ z) hnmc]
  rw [show (nm ++ (';' :: (e ++ z)) : Str) = nm ++ ((';' :: e) ++ z) from by simp]
  rw [← List.append_assoc]
  have hd2 : ∀ c ∈ nm ++ (';' :: e), ¬ c = '$' := by
    intro c hc
    rcases List.mem_append.mp hc with h | h
    · have := hnmc c h
      intro hq; subst hq; simp [isIdentChar, isAlpha, isDigit] at this
    · intro hq
      subst hq
      rcases he with hk | hk <;> subst hk <;> exact absurd h (by decide)
  rw [thisPropGo_no_dollar _ hd2]

theorem thisPropGo_text (kw ind e : Str)
    (hkw : kw = st "var" ∨ kw = st "public" ∨ kw = st "protected" ∨ kw = st "private")
    (hind : ∀ c ∈ ind, c = ' ' ∨ c = '\t')
    (he : e = st "\n" ∨ e = st "\r\n") :
    ∀ (names : List Str) (z : Str),
    (∀ nm ∈ names, ∀ c ∈ nm, isIdentChar c = true) →
    thisPropGo 0
        ((((names.map (fun n => ind ++ kw ++ (' ' :: '$' :: n) ++ (';' :: e))).flatten))
          ++ z) =
      thisPropGo 0 z := by
  intro names
  induction names with
  | nil => intro z hv; rfl
  | cons n ns ih =>
    intro z hv
    have hshape :
        ((((n :: ns).map (fun n => ind ++ kw ++ (' ' :: '$' :: n) ++ (';' :: e))).flatten)
          ++ z) =
        (ind ++ kw ++ (' ' :: '$' :: n) ++ (';' :: e)) ++
          ((((ns.map (fun n => ind ++ kw ++ (' ' :: '$' :: n) ++ (';' :: e))).flatten)) ++ z) := by
      simp [List.append_assoc]
    rw [hshape]
    rw [thisPropGo_line kw ind n e hkw hind (hv n (List.mem_cons_self n ns)) he]
    exact ih z (fun nm hnm => hv nm (List.mem_cons_of_mem n hnm))

theorem thisPropGo_valid (s : Str) : ∀ (skip : Nat), ∀ nm ∈ thisPropGo skip s,
    nm ≠ [] ∧ (∀ c0, nm.head? = some c0 → isIdentStart c0 = true) ∧
      (∀ c ∈ nm, isIdentChar c = true) := by
  induction s with
  | nil => intro skip nm h; simp [thisPropGo] at h
  | cons c cs ih =>
    intro skip nm h
    by_cases hskip : 0 < skip
    · rw [thisPropGo, if_pos hskip] at h
      exact ih _ nm h
    · rw [thisPropGo, if_neg hskip] at h
      by_cases hlit : litPre false (st "$this->") (c :: cs) = true
      · rw [if_pos hlit] at h
        dsimp only at h
        cases hh : (((c :: cs).drop 7).takeWhile isIdentChar).head? with
        | none => rw [hh] at h; dsimp only at h; exact ih _ nm h
        | some c0 =>
          rw [hh] at h
          dsimp only at h
          by_cases hstart : isIdentStart c0 = true
          · rw [if_pos hstart] at h
            rcases List.mem_cons.mp h with h | h
            · subst h
              refine ⟨?_, ?_, ?_⟩
              · intro hnil; rw [hnil] at hh; simp at hh
              · intro c1 hc1; rw [hh] at hc1
                injection hc1 with hc1; subst hc1; exact hstart
              · intro c1 hc1; exact List.mem_takeWhile_imp hc1
            · exact ih _ nm h
          · rw [if_neg hstart] at h; exact ih _ nm h
      · rw [if_neg hlit] at h
        exact ih _ nm h

theorem infer_prop_decl_style_cases (src : Str) :
    infer_prop_decl_style src = st "var" ∨ infer_prop_decl_style src = st "public" ∨
      infer_prop_decl_style src = st "protected" ∨
      infer_prop_decl_style src = st "private" := by
  unfold infer_prop_decl_style
  dsimp only
  split_ifs <;> simp

theorem splice_body (src text : Str) (p q : Nat) (hp : p ≤ q) (hq : q ≤ src.length) :
    ((src.take p ++ text ++ src.drop p).take (q + text.length)).drop p =
      text ++ (src.take q).drop p := by
  have hlp : (src.take p).length = p := by
    rw [List.length_take]; omega
  have h1 : (src.take p ++ text ++ src.drop p) =
      src.take p ++ (text ++ src.drop p) := by simp [List.append_assoc]
  rw [h1]
  rw [List.take_append_eq_append_take]
  rw [hlp]
  have h2 : (src.take p).take (q + text.length) = src.take p := by
    rw [List.take_take]
    congr 1
    omega
  rw [h2]
  rw [List.take_append_eq_append_take]
  have h3 : text.take (q + text.length - p) = text := by
    apply List.take_of_length_le
    omega
  rw [h3]
  have hidx : q + text.length - p - text.length = q - p := by omega
  rw [hidx]
  rw [List.drop_append_eq_append_drop, hlp]
  have h4 : (src.take p).drop p = [] := by
    apply List.drop_eq_nil_of_le
    omega
  have h5 : p - p = 0 := by omega
  rw [h4, List.nil_append, h5, List.drop_zero]
  rw [List.drop_take]

theorem declareRegionStep_eq (style : Style) (ds cur : Str) (b : Bool) (ns : List Str)
    (o cl : Nat) :
    declareRegionStep style ds (cur, b, ns) (o, cl) =
      (if lexSort (dedupStr ((thisPropNames ((cur.take cl).drop (o + 1))).filter
            (fun n => ¬ (declaredNames ((cur.take cl).drop (o + 1))).contains n))) = []
       then (cur, b, ns)
       else
        (cur.take (o + 1 + find_insert_point ((cur.take cl).drop (o + 1))) ++
           decl_text
             (lexSort (dedupStr ((thisPropNames ((cur.take cl).drop (o + 1))).filter
               (fun n => ¬ (declaredNames ((cur.take cl).drop (o + 1))).contains n))))
             style ds ++
           cur.drop (o + 1 + find_insert_point ((cur.take cl).drop (o + 1))), true,
         ns ++ [st "declare[" ++ ds ++ st "]: " ++
           joinSep (st ", ")
             (lexSort (dedupStr ((thisPropNames ((cur.take cl).drop (o + 1))).filter
               (fun n => ¬ (declaredNames ((cur.take cl).drop (o + 1))).contains n))))])) := by
  rfl

theorem fix_dynamic_single (style : Style) (src : Str) (o cl : Nat)
    (h : iter_class_regions src = [(o, cl)]) :
    fix_dynamic_properties_declare style src =
      ((declareRegionStep style (infer_prop_decl_style src) (src, false, []) (o, cl)).1,
       (declareRegionStep style (infer_prop_decl_style src) (src, false, []) (o, cl)).2.1,
       if (declareRegionStep style (infer_prop_decl_style src) (src, false, []) (o, cl)).2.2 = []
       then []
       else joinSep (st " ; ")
         (declareRegionStep style (infer_prop_decl_style src) (src, false, []) (o, cl)).2.2) := by
  unfold fix_dynamic_properties_declare
  rw [h]
  simp

/-- C4 (amended): the Declarator is idempotent on its own output under the
conditions of the amended claim: the style indent is blank characters, the
eol is LF or CRLF, the source has exactly one class region whose insertion
point is the body start, and rescanning the patched source finds the same
region grown by exactly the inserted text.  Then a second run of
`_fix_dynamic_properties_declare` returns the patched source unchanged with
`changed = False` and no note: every inserted declaration line is matched by
`_PROP_DECL_RE` on the second scan, so the missing set is empty. -/
theorem C4_amended (style : Style) (src : Str) (o cl : Nat)
    (hindent : ∀ c ∈ style.indent, c = ' ' ∨ c = '\t')
    (heol : style.eol = [] ∨ style.eol = st "\n" ∨ style.eol = st "\r\n")
    (hreg : iter_class_regions src = [(o, cl)])
    (hocl : o + 1 ≤ cl)
    (hcl : cl ≤ src.length)
    (hip : find_insert_point ((src.take cl).drop (o + 1)) = 0)
    (hreg2 : iter_class_regions (fix_dynamic_properties_declare style src).1 =
      [(o, cl + ((fix_dynamic_properties_declare style src).1.length - src.length))]) :
    fix_dynamic_properties_declare style (fix_dynamic_properties_declare style src).1 =
      ((fix_dynamic_properties_declare style src).1, false, []) := by
  by_cases hmiss :
      lexSort (dedupStr ((thisPropNames ((src.take cl).drop (o + 1))).filter
        (fun n => ¬ (declaredNames ((src.take cl).drop (o + 1))).contains n))) = []
  · have hstep : declareRegionStep style (infer_prop_decl_style src)
        (src, false, []) (o, cl) = (src, false, []) := by
      rw [declareRegionStep_eq, if_pos hmiss]
    have hout : fix_dynamic_properties_declare style src = (src, false, []) := by
      rw [fix_dynamic_single style src o cl hreg, hstep]
      rfl
    rw [hout]
    exact hout
  · have hstep1 : declareRegionStep style (infer_prop_decl_style src)
        (src, false, []) (o, cl) =
        (src.take (o + 1) ++
           decl_text
             (lexSort (dedupStr ((thisPropNames ((src.take cl).drop (o + 1))).filter
               (fun n => ¬ (declaredNames ((src.take cl).drop (o + 1))).contains n))))
             style (infer_prop_decl_style src) ++
           src.drop (o + 1), true,
         [st "declare[" ++ infer_prop_decl_style src ++ st "]: " ++
           joinSep (st ", ")
             (lexSort (dedupStr ((thisPropNames ((src.take cl).drop (o + 1))).filter
               (fun n => ¬ (declaredNames ((src.take cl).drop (o + 1))).contains n))))]) := by
      rw [declareRegionStep_eq, if_neg hmiss, hip]
      simp only [Nat.add_zero, List.nil_append]
    set B := (src.take cl).drop (o + 1) with hB
    set M := lexSort (dedupStr ((thisPropNames B).filter
      (fun n => ¬ (declaredNames B).contains n))) with hM
    set ds := infer_prop_decl_style src with hds
    set T := decl_text M style ds with hT
    have hfix1 : (fix_dynamic_properties_declare style src).1 =
        src.take (o + 1) ++ T ++ src.drop (o + 1) := by
      rw [fix_dynamic_single style src o cl hreg, hstep1]
    obtain ⟨indE, hindE_def, hindE⟩ :
        ∃ i, (if style.indent = [] then st "    " else style.indent) = i ∧
          ∀ c ∈ i, c = ' ' ∨ c = '\t' := by
      by_cases h : style.indent = []
      · exact ⟨st "    ", by rw [if_pos h], by decide⟩
      · exact ⟨style.indent, by rw [if_neg h], hindent⟩
    obtain ⟨eE, heE_def, heE⟩ :
        ∃ e, (if style.eol = [] then st "\n" else style.eol) = e ∧
          (e = st "\n" ∨ e = st "\r\n") := by
      rcases heol with h | h | h
      · exact ⟨st "\n", by rw [if_pos h], Or.inl rfl⟩
      · exact ⟨st "\n", by rw [h]; exact if_neg (by decide), Or.inl rfl⟩
      · exact ⟨st "\r\n", by rw [h]; exact if_neg (by decide), Or.inr rfl⟩
    have hkwE : ds = st "var" ∨ ds = st "public" ∨ ds = st "protected" ∨
        ds = st "private" := by
      rw [hds]; exact infer_prop_decl_style_cases src
    have hvalid : ∀ nm ∈ M, nm ≠ [] ∧
        (∀ c0, nm.head? = some c0 → isIdentStart c0 = true) ∧
        (∀ c ∈ nm, isIdentChar c = true) := by
      intro nm hn
      rw [hM] at hn
      have h1 := mem_dedupStr.mp (mem_lexSort.mp hn)
      have h2 : nm ∈ thisPropNames B := (List.mem_filter.mp h1).1
      exact thisPropGo_valid B 0 nm h2
    have hss : sortedSet M = M := by
      rw [hM]; exact sortedSet_of_sorted_nodup
    have hTflat : T = (M.map
        (fun n => indE ++ ds ++ (' ' :: '$' :: n) ++ (';' :: eE))).flatten := by
      rw [hT]
      unfold decl_text
      dsimp only
      rw [hindE_def, heE_def, hss]
    have hlen1 : (src.take (o + 1) ++ T ++ src.drop (o + 1)).length =
        src.length + T.length := by
      simp only [List.length_append, List.length_take, List.length_drop]
      omega
    rw [hfix1] at hreg2
    rw [hlen1] at hreg2
    have hlen2 : src.length + T.length - src.length = T.length := by omega
    rw [hlen2] at hreg2
    have hbody2 : ((src.take (o + 1) ++ T ++ src.drop (o + 1)).take
        (cl + T.length)).drop (o + 1) = T ++ B := by
      rw [hB]
      exact splice_body src T (o + 1) cl hocl hcl
    have hdecl2 : declaredNames (T ++ B) = M ++ declaredNames B := by
      rw [hTflat]
      unfold declaredNames propDeclMatches
      exact propDeclGo_text ds indE eE hkwE hindE heE M B 0 hvalid
    have hused2 : thisPropNames (T ++ B) = thisPropNames B := by
      rw [hTflat]
      unfold thisPropNames
      exact thisPropGo_text ds indE eE hkwE hindE heE M B
        (fun nm hnm => (hvalid nm hnm).2.2)
    have hfilter : (thisPropNames B).filter
        (fun n => ¬ (M ++ declaredNames B).contains n) = [] := by
      rw [List.filter_eq_nil_iff]
      intro n hn
      simp only [decide_eq_true_eq, Decidable.not_not]
      show (M ++ declaredNames B).elem n = true
      rw [List.elem_iff, List.mem_append]
      by_cases hd : n ∈ declaredNames B
      · exact Or.inr hd
      · left
        rw [hM]
        refine mem_lexSort.mpr (mem_dedupStr.mpr (List.mem_filter.mpr ⟨hn, ?_⟩))
        simp only [decide_eq_true_eq]
        intro hcon
        exact hd (List.elem_iff.mp hcon)
    have hstep2 : declareRegionStep style
        (infer_prop_decl_style (src.take (o + 1) ++ T ++ src.drop (o + 1)))
        (src.take (o + 1) ++ T ++ src.drop (o + 1), false, [])
        (o, cl + T.length) =
        (src.take (o + 1) ++ T ++ src.drop (o + 1), false, []) := by
      rw [declareRegionStep_eq]
      rw [if_pos]
      rw [hbody2, hused2, hdecl2, hfilter]
      rfl
    have hfix2 : fix_dynamic_properties_declare style
        (src.take (o + 1) ++ T ++ src.drop (o + 1)) =
        (src.take (o + 1) ++ T ++ src.drop (o + 1), false, []) := by
      rw [fix_dynamic_single style _ o (cl + T.length) hreg2, hstep2]
      rfl
    rw [hfix1]
    exact hfix2

/-- C4 witness: the amended theorem applied to a concrete one-class file
whose body references `$this->w` without declaring it. -/
theorem C4_witness :
    fix_dynamic_properties_declare (infer_style c4w_src)
        (fix_dynamic_properties_declare (infer_style c4w_src) c4w_src).1 =
      ((fix_dynamic_properties_declare (infer_style c4w_src) c4w_src).1, false, []) :=
  C4_amended (infer_style c4w_src) c4w_src 8 57 (by decide) (by decide) (by decide)
    (by decide) (by decide) (by decide) (by decide)
